import Mathlib

/-!
# Digraph.hpp: a shallow embedding

The class template `Digraph<VertexInfo, EdgeInfo>` of `src/core/Digraph.hpp`
keeps one member, `std::map<int, DigraphVertex<VertexInfo, EdgeInfo>> list`.
A `std::map` is embedded as the list of its entries in iteration order
(ascending keys); every member function is translated statement by statement.

Conventions.
* A call that can throw returns `Except Fault _`.  A mutating member function
  returns the outcome of the call together with the graph as it is after the
  call, so that what a throwing call leaves behind is visible.
* `int` vertex numbers are `Int`; no arithmetic is done on them.  The `int`
  counters only count entries of containers and are `Nat`.
* `DFTr` is recursive; the embedding recurses on an explicit budget of nested
  calls and `DFT` hands it one call per vertex.
-/

namespace DigraphHpp

/-- How a call can end without a value. -/
inductive Fault where
  /-- A `DigraphException` carrying its reason string was thrown. -/
  | DigraphException (reason : String)
  /-- The exception `std::out_of_range`, thrown by `std::map::at`, escaped. -/
  | out_of_range
  /-- The iterator `list.end()` was dereferenced: C++ defines no behaviour. -/
  | undefined
  /-- The budget of nested calls of the embedding ran out (no C++ counterpart). -/
  | fuel
  deriving DecidableEq, Repr

deriving instance DecidableEq for Except

/-- The struct template `DigraphEdge<EdgeInfo>`. -/
structure DigraphEdge (EdgeInfo : Type) where
  fromVertex : Int
  toVertex : Int
  einfo : EdgeInfo
  deriving DecidableEq, Repr

/-- The struct template `DigraphVertex<VertexInfo, EdgeInfo>`; `edges` is the
`std::list` of outgoing edges in list order. -/
structure DigraphVertex (VertexInfo EdgeInfo : Type) where
  vinfo : VertexInfo
  edges : List (DigraphEdge EdgeInfo)
  deriving DecidableEq, Repr

/-- A `std::map<int, T>`: its entries in iteration order. -/
abbrev StdMap (T : Type) := List (Int × T)

/-- The lookup `m.find(k)`: the mapped value, `none` for `m.end()`. -/
def mapFind {T : Type} : StdMap T → Int → Option T
  | [], _ => none
  | (k', v) :: rest, k => if k' = k then some v else mapFind rest k

/-- The assignment `m[k] = v`: overwrite the entry of `k`, or insert one at its
place in key order. -/
def mapInsert {T : Type} (k : Int) (v : T) : StdMap T → StdMap T
  | [] => [(k, v)]
  | (k', v') :: rest =>
    if k < k' then (k, v) :: (k', v') :: rest
    else if k = k' then (k, v) :: rest
    else (k', v') :: mapInsert k v rest

/-- Update in place of the value mapped to `k` (through `m[k]`, `m.at(k)` or an
iterator to the entry), for a key that is present. -/
def mapModify {T : Type} (k : Int) (f : T → T) : StdMap T → StdMap T
  | [] => []
  | (k', v) :: rest => if k' = k then (k', f v) :: rest else (k', v) :: mapModify k f rest

/-- The call `m.erase(it)` for the iterator `it = m.find(k)`. -/
def mapErase {T : Type} (k : Int) : StdMap T → StdMap T
  | [] => []
  | (k', v) :: rest => if k' = k then rest else (k', v) :: mapErase k rest

/-- The call `m.size()`. -/
def mapSize {T : Type} (m : StdMap T) : Nat := m.length

/-- The call `m.at(k)`, which throws `std::out_of_range` for an absent key. -/
def mapAt {T : Type} (m : StdMap T) (k : Int) : Except Fault T :=
  match mapFind m k with
  | some v => .ok v
  | none => .error .out_of_range

/-- The representation invariant of `std::map`: keys strictly ascending. -/
def mapWF {T : Type} (m : StdMap T) : Prop := (m.map Prod.fst).Pairwise (· < ·)

/-- The class template `Digraph<VertexInfo, EdgeInfo>`: its only data member. -/
structure Digraph (VertexInfo EdgeInfo : Type) where
  list : StdMap (DigraphVertex VertexInfo EdgeInfo)
  deriving DecidableEq, Repr

namespace Digraph

variable {VertexInfo EdgeInfo : Type}

/-- The default constructor: no vertices, no edges. -/
def empty : Digraph VertexInfo EdgeInfo := ⟨[]⟩

/-- The member `vertices()`. -/
def vertices (g : Digraph VertexInfo EdgeInfo) : List Int :=
  g.list.foldl (fun temp iterator => temp ++ [iterator.1]) []

/-- The member `edges()`: the nested loop pushing one pair per stored edge. -/
def edges (g : Digraph VertexInfo EdgeInfo) : List (Int × Int) :=
  g.list.foldl
    (fun temp iteratorList =>
      iteratorList.2.edges.foldl
        (fun temp iteratorEdge => temp ++ [(iteratorEdge.fromVertex, iteratorEdge.toVertex)])
        temp)
    []

/-- The member `edges(int vertex)`. -/
def edgesOf (g : Digraph VertexInfo EdgeInfo) (vertex : Int) : Except Fault (List (Int × Int)) :=
  match mapFind g.list vertex with
  | none => .error (.DigraphException "A key already exists")
  | some dv =>
    .ok (dv.edges.foldl (fun temp iterater => temp ++ [(iterater.fromVertex, iterater.toVertex)]) [])

/-- The member `vertexInfo(int vertex)`. -/
def vertexInfo (g : Digraph VertexInfo EdgeInfo) (vertex : Int) : Except Fault VertexInfo :=
  match mapFind g.list vertex with
  | none => .error (.DigraphException "A key already exists")
  | some dv => .ok dv.vinfo

/-- The search loop shared by `edgeInfo`, `addEdge` and `removeEdge`: the first
edge of the list with the given endpoints. -/
def findEdge (fromVertex toVertex : Int) : List (DigraphEdge EdgeInfo) → Option (DigraphEdge EdgeInfo)
  | [] => none
  | interater :: rest =>
    if interater.fromVertex = fromVertex ∧ interater.toVertex = toVertex then some interater
    else findEdge fromVertex toVertex rest

/-- The member `edgeInfo(int fromVertex, int toVertex)`. -/
def edgeInfo (g : Digraph VertexInfo EdgeInfo) (fromVertex toVertex : Int) : Except Fault EdgeInfo :=
  match mapFind g.list fromVertex with
  | none => .error (.DigraphException "A key already exists")
  | some dv =>
    match findEdge fromVertex toVertex dv.edges with
    | some e => .ok e.einfo
    | none => .error (.DigraphException "A key already exists")

/-- The member `addVertex`: the outcome and the graph after the call.  On a new
key `list[vertex]` creates the entry with an empty edge list and the
assignment stores `vinfo` in it. -/
def addVertex (g : Digraph VertexInfo EdgeInfo) (vertex : Int) (vinfo : VertexInfo) :
    Except Fault Unit × Digraph VertexInfo EdgeInfo :=
  match mapFind g.list vertex with
  | none => (.ok (), ⟨mapInsert vertex ⟨vinfo, []⟩ g.list⟩)
  | some _ => (.error (.DigraphException "A key already exists"), g)

/-- The member `addEdge`: the outcome and the graph after the call.  Only
`fromVertex` is looked up; `toVertex` is compared with stored edges only. -/
def addEdge (g : Digraph VertexInfo EdgeInfo) (fromVertex toVertex : Int) (einfo : EdgeInfo) :
    Except Fault Unit × Digraph VertexInfo EdgeInfo :=
  match mapFind g.list fromVertex with
  | none => (.error (.DigraphException "did not find the key"), g)
  | some dv =>
    match findEdge fromVertex toVertex dv.edges with
    | some _ => (.error (.DigraphException "the Edge info was already inserted into the graph"), g)
    | none =>
      (.ok (), ⟨mapModify fromVertex
        (fun d => { d with edges := d.edges ++ [⟨fromVertex, toVertex, einfo⟩] }) g.list⟩)

/-- The member `removeVertex`: the outcome and the graph after the call.  The
entry of `vertex` is erased; no other entry is touched. -/
def removeVertex (g : Digraph VertexInfo EdgeInfo) (vertex : Int) :
    Except Fault Unit × Digraph VertexInfo EdgeInfo :=
  match mapFind g.list vertex with
  | none => (.error (.DigraphException "did not find the key"), g)
  | some _ => (.ok (), ⟨mapErase vertex g.list⟩)

/-- The loop of `removeEdge` over one edge list: the list without its first
edge with the given endpoints, `none` when the loop ends without a match. -/
def eraseEdge (fromVertex toVertex : Int) : List (DigraphEdge EdgeInfo) → Option (List (DigraphEdge EdgeInfo))
  | [] => none
  | iterEdge :: rest =>
    if iterEdge.fromVertex = fromVertex ∧ iterEdge.toVertex = toVertex then some rest
    else (eraseEdge fromVertex toVertex rest).map (fun l => iterEdge :: l)

/-- The member `removeEdge`: the outcome and the graph after the call. -/
def removeEdge (g : Digraph VertexInfo EdgeInfo) (fromVertex toVertex : Int) :
    Except Fault Unit × Digraph VertexInfo EdgeInfo :=
  match mapFind g.list fromVertex with
  | none => (.error (.DigraphException "did not find the key"), g)
  | some dv =>
    match eraseEdge fromVertex toVertex dv.edges with
    | some l => (.ok (), ⟨mapModify fromVertex (fun d => { d with edges := l }) g.list⟩)
    | none => (.error (.DigraphException "did not find the key"), g)

/-- The member `vertexCount()`. -/
def vertexCount (g : Digraph VertexInfo EdgeInfo) : Nat := mapSize g.list

/-- The member `edgeCount()`: one increment per stored edge. -/
def edgeCount (g : Digraph VertexInfo EdgeInfo) : Nat :=
  g.list.foldl
    (fun count iteratorList => iteratorList.2.edges.foldl (fun count _ => count + 1) count)
    0

/-- The member `edgeCount(int vertex)`.  After the lookup of `vertex` the loop
runs over every entry of `list` and adds the size of its edge list. -/
def edgeCountOf (g : Digraph VertexInfo EdgeInfo) (vertex : Int) : Except Fault Nat :=
  match mapFind g.list vertex with
  | none => .error (.DigraphException "did not find the key")
  | some _ => .ok (g.list.foldl (fun count iterate => count + iterate.2.edges.length) 0)

/-- The counting loop of `DFTr`: the entries of `myArray` mapped to `true`. -/
def countMarked (myArray : StdMap Bool) : Nat :=
  myArray.foldl (fun count i => if i.2 = true then count + 1 else count) 0

/-- The edge loop of `DFTr`, with `call` standing for the recursive call and
`result` for the local variable of that name. -/
def DFTrLoop (call : Int → StdMap Bool → Except Fault Bool) (myArray : StdMap Bool) :
    List (DigraphEdge EdgeInfo) → Bool → Except Fault Bool
  | [], result => .ok result
  | iterEdge :: rest, result =>
    match mapAt myArray iterEdge.toVertex with
    | .error f => .error f
    | .ok marked =>
      if marked = false then
        match call iterEdge.toVertex myArray with
        | .error f => .error f
        | .ok r => if r = true then .ok r else DFTrLoop call myArray rest r
      else DFTrLoop call myArray rest result

/-- The member `DFTr(int x, std::map<int, bool> myArray)`; the map is a copy of
the one of the caller.  The first argument bounds the nesting of calls. -/
def DFTr (g : Digraph VertexInfo EdgeInfo) : Nat → Int → StdMap Bool → Except Fault Bool
  | 0, _, _ => .error .fuel
  | n + 1, x, myArray =>
    match mapFind myArray x with
    | none => .error .out_of_range
    | some _ =>
      let marked := mapModify x (fun _ => true) myArray
      if countMarked marked = mapSize marked then .ok true
      else
        match mapFind g.list x with
        | none => .error .undefined
        | some dv => DFTrLoop (DFTr g n) marked dv.edges false

/-- The second loop of `DFT`, over the entries of `myArray`. -/
def DFTLoop (g : Digraph VertexInfo EdgeInfo) (myArray : StdMap Bool) :
    List (Int × Bool) → Bool → Except Fault Bool
  | [], result => .ok result
  | i :: rest, result =>
    if i.2 = false then
      match DFTr g (mapSize myArray) i.1 myArray with
      | .error f => .error f
      | .ok r => if r = false then .ok false else DFTLoop g myArray rest r
    else DFTLoop g myArray rest result

/-- The member `DFT()`. -/
def DFT (g : Digraph VertexInfo EdgeInfo) : Except Fault Bool :=
  let myArray : StdMap Bool := g.list.foldl (fun m iter => mapInsert iter.1 false m) []
  DFTLoop g myArray myArray false

/-- The member `isStronglyConnected()`. -/
def isStronglyConnected (g : Digraph VertexInfo EdgeInfo) : Except Fault Bool :=
  if mapSize g.list < 1 then .ok false else DFT g

/-- The member `findShortestPaths`: its body is the single statement
`return std::map<int, int>{};`.  Neither argument is read; the weight function
has result type `double` in the source. -/
def findShortestPaths (_g : Digraph VertexInfo EdgeInfo) (_startVertex : Int)
    (_edgeWeightFunc : EdgeInfo → Float) : Except Fault (StdMap Int) :=
  .ok []

end Digraph

/-! ## Sequences of calls -/

/-- One call of a public mutating member function, with its arguments. -/
inductive Call (VertexInfo EdgeInfo : Type) where
  | addVertex (vertex : Int) (vinfo : VertexInfo)
  | addEdge (fromVertex toVertex : Int) (einfo : EdgeInfo)
  | removeVertex (vertex : Int)
  | removeEdge (fromVertex toVertex : Int)

/-- The outcome of a call on `g` and the graph after it. -/
def Call.run {VertexInfo EdgeInfo : Type} (g : Digraph VertexInfo EdgeInfo) :
    Call VertexInfo EdgeInfo → Except Fault Unit × Digraph VertexInfo EdgeInfo
  | .addVertex vertex vinfo => g.addVertex vertex vinfo
  | .addEdge fromVertex toVertex einfo => g.addEdge fromVertex toVertex einfo
  | .removeVertex vertex => g.removeVertex vertex
  | .removeEdge fromVertex toVertex => g.removeEdge fromVertex toVertex

/-- The graph after a sequence of calls made on `g` one after the other,
whether each of them returned or threw. -/
def runCalls {VertexInfo EdgeInfo : Type} (g : Digraph VertexInfo EdgeInfo)
    (calls : List (Call VertexInfo EdgeInfo)) : Digraph VertexInfo EdgeInfo :=
  calls.foldl (fun g c => (c.run g).2) g

/-! ## Notions of the specification -/

/-- A directed path of stored edges leads from `u` to `v` (the empty path
included). -/
def Reaches {VertexInfo EdgeInfo : Type} (g : Digraph VertexInfo EdgeInfo) (u v : Int) : Prop :=
  Relation.ReflTransGen (fun a b => (a, b) ∈ g.edges) u v

/-- Every vertex can reach every other vertex along a directed path. -/
def StronglyConnected {VertexInfo EdgeInfo : Type} (g : Digraph VertexInfo EdgeInfo) : Prop :=
  ∀ u ∈ g.vertices, ∀ v ∈ g.vertices, Reaches g u v

/-- Every stored edge points to a vertex of the graph. -/
def DestinationsExist {VertexInfo EdgeInfo : Type} (g : Digraph VertexInfo EdgeInfo) : Prop :=
  ∀ p ∈ g.edges, p.2 ∈ g.vertices

/-! ## Graphs used as concrete inputs -/

/-- Vertices 1, 2, 3 and the edges 1->2, 2->1, 1->3, 3->1. -/
def twoLoops : Digraph Unit Unit :=
  runCalls Digraph.empty
    [.addVertex 1 (), .addVertex 2 (), .addVertex 3 (),
     .addEdge 1 2 (), .addEdge 2 1 (), .addEdge 1 3 (), .addEdge 3 1 ()]

/-- Vertices 1..4 and the edges 1->2 (1), 2->3 (1), 1->3 (5), 3->4 (1), the
payload of an edge being its weight. -/
def weighted : Digraph Unit Float :=
  runCalls Digraph.empty
    [.addVertex 1 (), .addVertex 2 (), .addVertex 3 (), .addVertex 4 (),
     .addEdge 1 2 1, .addEdge 2 3 1, .addEdge 1 3 5, .addEdge 3 4 1]

/-- The single vertex 1, no edge. -/
def oneVertex : Digraph Unit Float :=
  runCalls Digraph.empty [.addVertex 1 ()]

/-- The vertices 1 and 5, no edge. -/
def isolated : Digraph Unit Float :=
  runCalls Digraph.empty [.addVertex 1 (), .addVertex 5 ()]

/-- Vertices 1 and 2 and the edge 1->2. -/
def oneEdge : Digraph Unit Unit :=
  runCalls Digraph.empty [.addVertex 1 (), .addVertex 2 (), .addEdge 1 2 ()]

/-- The single vertex 1, no edge, without payloads. -/
def lonely : Digraph Unit Unit :=
  runCalls Digraph.empty [.addVertex 1 ()]

/-- The sum of `edgeCount(v)` over a list of vertex numbers; a throwing
`edgeCount(v)` ends the summation. -/
def sumEdgeCountOf {VertexInfo EdgeInfo : Type} (g : Digraph VertexInfo EdgeInfo) :
    List Int → Except Fault Nat
  | [] => .ok 0
  | v :: rest =>
    match g.edgeCountOf v, sumEdgeCountOf g rest with
    | .ok count, .ok total => .ok (count + total)
    | .error f, _ => .error f
    | .ok _, .error f => .error f

/-- The graph can be built from the empty graph by a sequence of calls of the
public mutating member functions. -/
def Reachable {VertexInfo EdgeInfo : Type} (g : Digraph VertexInfo EdgeInfo) : Prop :=
  ∃ calls : List (Call VertexInfo EdgeInfo), g = runCalls Digraph.empty calls

/-! ## Invariants of the storage -/

/-- An entry of `list` with key `k`: each stored edge starts at `k`, and no two
stored edges have the same destination. -/
def EntryOK {VertexInfo EdgeInfo : Type} (k : Int) (dv : DigraphVertex VertexInfo EdgeInfo) : Prop :=
  (∀ e ∈ dv.edges, e.fromVertex = k) ∧ (dv.edges.map (fun e => e.toVertex)).Nodup

/-- The keys of `list` ascend strictly and every entry satisfies `EntryOK`. -/
def Inv {VertexInfo EdgeInfo : Type} (g : Digraph VertexInfo EdgeInfo) : Prop :=
  mapWF g.list ∧ ∀ it ∈ g.list, EntryOK it.1 it.2

/-! ## Moving a graph -/

/-- The call `a.swap(b)` of `std::map`: the contents of `a` and of `b` after
the call. -/
def mapSwap {T : Type} (a b : StdMap T) : StdMap T × StdMap T := (b, a)

/-- The move constructor `Digraph(Digraph&& d)`: the member `list` of the new
graph starts empty and is swapped with `d.list`.  The result is the new graph
and `d` after the call. -/
def Digraph.moveConstruct {VertexInfo EdgeInfo : Type} (d : Digraph VertexInfo EdgeInfo) :
    Digraph VertexInfo EdgeInfo × Digraph VertexInfo EdgeInfo :=
  let swapped := mapSwap ([] : StdMap (DigraphVertex VertexInfo EdgeInfo)) d.list
  (⟨swapped.1⟩, ⟨swapped.2⟩)

/-- The move assignment `operator=(Digraph&& d)`, whose body is
`this->list.swap(d.list)`.  The result is the assigned graph and `d` after the
call. -/
def Digraph.moveAssign {VertexInfo EdgeInfo : Type} (self d : Digraph VertexInfo EdgeInfo) :
    Digraph VertexInfo EdgeInfo × Digraph VertexInfo EdgeInfo :=
  let swapped := mapSwap self.list d.list
  (⟨swapped.1⟩, ⟨swapped.2⟩)

/-- Vertices 1, 2, 3 and the edges 1->2, 2->3, 3->1. -/
def triangle : Digraph Unit Unit :=
  runCalls Digraph.empty
    [.addVertex 1 (), .addVertex 2 (), .addVertex 3 (),
     .addEdge 1 2 (), .addEdge 2 3 (), .addEdge 3 1 ()]

/-- Vertices 1, 2 with the self-loop 1->1 and the cycle 1->2, 2->1. -/
def loops : Digraph Unit Unit :=
  runCalls Digraph.empty
    [.addVertex 1 (), .addVertex 2 (), .addEdge 1 1 (), .addEdge 1 2 (), .addEdge 2 1 ()]

/-- The call returned a value, or `std::out_of_range` escaped from it. -/
def ReturnsOrThrows (r : Except Fault Bool) : Prop :=
  (∃ b, r = .ok b) ∨ r = .error .out_of_range

/-- A simple directed path of stored edges starts at `x` and visits every vertex
of the graph exactly once. -/
def HamiltonianPathFrom {VertexInfo EdgeInfo : Type} (g : Digraph VertexInfo EdgeInfo)
    (x : Int) : Prop :=
  ∃ p : List Int, p.head? = some x ∧ p.Nodup ∧ (∀ v, v ∈ p ↔ v ∈ g.vertices) ∧
    p.Chain' (fun a b => (a, b) ∈ g.edges)

/-! ## The connectivity check -/

/-- C1 (code defect): the graph with vertices 1, 2, 3 and edges 1->2, 2->1,
1->3, 3->1 is not empty, all its edges point to vertices and every vertex
reaches every vertex, yet `isStronglyConnected()` returns false on it. -/
theorem isStronglyConnected_false_on_twoLoops :
    twoLoops.vertices = [1, 2, 3] ∧
    twoLoops.edges = [(1, 2), (1, 3), (2, 1), (3, 1)] ∧
    DestinationsExist twoLoops ∧
    StronglyConnected twoLoops ∧
    twoLoops.isStronglyConnected = .ok false := by
  have hv : twoLoops.vertices = [1, 2, 3] := by decide
  have he : twoLoops.edges = [(1, 2), (1, 3), (2, 1), (3, 1)] := by decide
  have toHub : ∀ u ∈ [(1 : Int), 2, 3], Reaches twoLoops u 1 := by
    intro u hu
    simp only [List.mem_cons, List.mem_singleton, List.not_mem_nil, or_false] at hu
    rcases hu with rfl | rfl | rfl
    · exact Relation.ReflTransGen.refl
    · exact Relation.ReflTransGen.single (by show ((2 : Int), (1 : Int)) ∈ twoLoops.edges; decide)
    · exact Relation.ReflTransGen.single (by show ((3 : Int), (1 : Int)) ∈ twoLoops.edges; decide)
  have fromHub : ∀ v ∈ [(1 : Int), 2, 3], Reaches twoLoops 1 v := by
    intro v hv
    simp only [List.mem_cons, List.mem_singleton, List.not_mem_nil, or_false] at hv
    rcases hv with rfl | rfl | rfl
    · exact Relation.ReflTransGen.refl
    · exact Relation.ReflTransGen.single (by show ((1 : Int), (2 : Int)) ∈ twoLoops.edges; decide)
    · exact Relation.ReflTransGen.single (by show ((1 : Int), (3 : Int)) ∈ twoLoops.edges; decide)
  refine ⟨hv, he, ?_, ?_, by decide⟩
  · intro p hp
    rw [he] at hp
    rw [hv]
    simp only [List.mem_cons, List.mem_singleton, List.not_mem_nil, or_false] at hp
    rcases hp with rfl | rfl | rfl | rfl <;> decide
  · intro u hu v hv2
    rw [hv] at hu hv2
    exact Relation.ReflTransGen.trans (toHub u hu) (fromHub v hv2)

/-! ## The shortest-path routine -/

/-- C2 (code defect): on the graph with vertices 1..4 and edges 1->2 (1),
2->3 (1), 1->3 (5), 3->4 (1), with the identity as weight function,
`findShortestPaths(1, w)` returns the empty map, not the predecessor map
1:1, 2:1, 3:2, 4:3. -/
theorem findShortestPaths_weighted_empty :
    weighted.vertices = [1, 2, 3, 4] ∧
    weighted.edges = [(1, 2), (1, 3), (2, 3), (3, 4)] ∧
    (weighted.edgeInfo 1 2 = .ok 1 ∧ weighted.edgeInfo 2 3 = .ok 1 ∧
      weighted.edgeInfo 1 3 = .ok 5 ∧ weighted.edgeInfo 3 4 = .ok 1) ∧
    weighted.findShortestPaths 1 (fun einfo => einfo) = .ok [] ∧
    weighted.findShortestPaths 1 (fun einfo => einfo) ≠ .ok [(1, 1), (2, 1), (3, 2), (4, 3)] := by
  refine ⟨rfl, rfl, ⟨rfl, rfl, rfl, rfl⟩, rfl, ?_⟩
  intro h
  cases h

/-- C3 (code defect): on the graph with the vertices 1 and 5 and no edge, the
map returned by `findShortestPaths(1, w)` has an entry neither for the start
vertex 1 nor for the unreachable vertex 5, so it does not cover the vertex
keys and maps neither of the two to itself. -/
theorem findShortestPaths_lacks_entries :
    isolated.vertices = [1, 5] ∧ isolated.edges = [] ∧
    ∃ m, isolated.findShortestPaths 1 (fun einfo => einfo) = .ok m ∧
      mapFind m 1 = none ∧ mapFind m 5 = none :=
  ⟨rfl, rfl, [], rfl, rfl, rfl⟩

/-- C4 (code defect): `findShortestPaths` never throws.  On the graph whose only
vertex is 1 the call with start vertex 2 returns the empty map, and so does
every call on every graph. -/
theorem findShortestPaths_unknown_start_returns :
    ((2 : Int) ∉ oneVertex.vertices ∧
      oneVertex.findShortestPaths 2 (fun einfo => einfo) = .ok []) ∧
    ∀ (VertexInfo EdgeInfo : Type) (g : Digraph VertexInfo EdgeInfo) (startVertex : Int)
      (edgeWeightFunc : EdgeInfo → Float),
      g.findShortestPaths startVertex edgeWeightFunc = .ok [] := by
  refine ⟨⟨?_, rfl⟩, fun _ _ _ _ _ => rfl⟩
  have hv : oneVertex.vertices = [1] := rfl
  rw [hv]
  decide

/-! ## Mutation and counts: defects shown on concrete graphs -/

/-- C5 (code defect): on the graph with vertices 1, 2 and the edge 1->2,
`removeVertex(2)` returns normally and leaves the incoming edge 1->2 in
`edges()`; `edgeCount()` is 1 before and after, although one edge was incident
to vertex 2. -/
theorem removeVertex_keeps_incoming_edge :
    oneEdge.vertices = [1, 2] ∧ oneEdge.edges = [(1, 2)] ∧ oneEdge.edgeCount = 1 ∧
    (oneEdge.edges.filter (fun p => p.1 = 2 ∨ p.2 = 2)).length = 1 ∧
    (oneEdge.removeVertex 2).1 = .ok () ∧
    (oneEdge.removeVertex 2).2.vertices = [1] ∧
    (oneEdge.removeVertex 2).2.edges = [(1, 2)] ∧
    (oneEdge.removeVertex 2).2.edgeCount = 1 := by
  decide

/-- C6 (code defect): on the graph whose only vertex is 1, `addEdge(1, 2, info)`
returns normally and stores the edge 1->2, although 2 is not a vertex. -/
theorem addEdge_accepts_missing_destination :
    lonely.vertices = [1] ∧ lonely.edges = [] ∧
    (lonely.addEdge 1 2 ()).1 = .ok () ∧
    (lonely.addEdge 1 2 ()).2.vertices = [1] ∧
    (lonely.addEdge 1 2 ()).2.edges = [(1, 2)] ∧
    (lonely.addEdge 1 2 ()).2 ≠ lonely := by
  decide

/-- C7 (code defect): invariant I1 fails on graphs built from the empty graph.
After `addVertex(1)`, `addEdge(1, 2)` the edge 1->2 is stored and 2 is not a
vertex; the same holds after `addVertex(1)`, `addVertex(2)`, `addEdge(1, 2)`,
`removeVertex(2)`. -/
theorem dangling_edge_after_calls :
    ((runCalls (Digraph.empty : Digraph Unit Unit)
        [.addVertex 1 (), .addEdge 1 2 ()]).edges = [(1, 2)] ∧
      (runCalls (Digraph.empty : Digraph Unit Unit)
        [.addVertex 1 (), .addEdge 1 2 ()]).vertices = [1]) ∧
    ((runCalls (Digraph.empty : Digraph Unit Unit)
        [.addVertex 1 (), .addVertex 2 (), .addEdge 1 2 (), .removeVertex 2]).edges = [(1, 2)] ∧
      (runCalls (Digraph.empty : Digraph Unit Unit)
        [.addVertex 1 (), .addVertex 2 (), .addEdge 1 2 (), .removeVertex 2]).vertices = [1]) := by
  decide

/-- C8 (code defect): on the graph with vertices 1, 2 and the edge 1->2, vertex 2
has no outgoing edge (`edges(2)` is empty) but `edgeCount(2)` returns 1, the
number of edges of the whole graph. -/
theorem edgeCountOf_counts_whole_graph :
    oneEdge.edgesOf 2 = .ok [] ∧ oneEdge.edgeCountOf 2 = .ok 1 ∧ oneEdge.edgeCount = 1 := by
  decide

/-- C9 (code defect): on the graph with vertices 1, 2 and the edge 1->2,
`edgeCount()` is 1 while `edgeCount(1) + edgeCount(2)` is 2. -/
theorem edgeCount_differs_from_sum :
    oneEdge.vertices = [1, 2] ∧ oneEdge.edgeCount = 1 ∧
    oneEdge.edgeCountOf 1 = .ok 1 ∧ oneEdge.edgeCountOf 2 = .ok 1 ∧
    sumEdgeCountOf oneEdge oneEdge.vertices = .ok 2 := by
  decide

/-! ## What `edgeCount(int)` computes -/

theorem foldl_count_eq {α : Type} (l : List α) (c : Nat) :
    l.foldl (fun count _ => count + 1) c = c + l.length := by
  induction l generalizing c with
  | nil => simp
  | cons a l ih => simp [ih]; omega

/-- For a vertex of the graph, `edgeCount(v)` returns what `edgeCount()` returns. -/
theorem edgeCountOf_eq_edgeCount {VertexInfo EdgeInfo : Type} (g : Digraph VertexInfo EdgeInfo)
    (vertex : Int) (dv : DigraphVertex VertexInfo EdgeInfo)
    (h : mapFind g.list vertex = some dv) : g.edgeCountOf vertex = .ok g.edgeCount := by
  have key : ∀ (l : StdMap (DigraphVertex VertexInfo EdgeInfo)) (c : Nat),
      l.foldl (fun count iterate => count + iterate.2.edges.length) c
        = l.foldl (fun count iteratorList =>
            iteratorList.2.edges.foldl (fun count _ => count + 1) count) c := by
    intro l
    induction l with
    | nil => intro c; rfl
    | cons a l ih =>
      intro c
      simp only [List.foldl_cons, foldl_count_eq, ih]
  simp only [Digraph.edgeCountOf, h, Digraph.edgeCount]
  rw [key]

/-! ## The budget of nested calls handed out by `DFT` is never used up -/

theorem countMarked_eq_countP (m : StdMap Bool) :
    Digraph.countMarked m = m.countP (fun i => i.2) := by
  have key : ∀ (l : StdMap Bool) (c : Nat),
      l.foldl (fun count i => if i.2 = true then count + 1 else count) c
        = c + l.countP (fun i => i.2) := by
    intro l
    induction l with
    | nil => intro c; simp
    | cons a l ih =>
      intro c
      simp only [List.foldl_cons, ih, List.countP_cons]
      split_ifs <;> omega
  simpa [Digraph.countMarked] using key m 0

theorem unmarked_mark_lt_length {m : StdMap Bool} {x : Int} {b : Bool}
    (h : mapFind m x = some b) :
    (mapModify x (fun _ => true) m).countP (fun i => !i.2) < m.length := by
  induction m with
  | nil => simp [mapFind] at h
  | cons a rest ih =>
    obtain ⟨k1, v1⟩ := a
    by_cases hk : k1 = x
    · simp only [mapModify, hk, if_true, List.countP_cons, List.length_cons]
      have := List.countP_le_length (fun i : Int × Bool => !i.2) (l := rest)
      simp
      omega
    · simp only [mapFind, hk, if_false] at h
      have ih2 := ih h
      simp only [mapModify, hk, if_false, List.countP_cons, List.length_cons]
      split_ifs <;> omega

theorem unmarked_mark_succ {m : StdMap Bool} {y : Int} (h : mapFind m y = some false) :
    (mapModify y (fun _ => true) m).countP (fun i => !i.2) + 1
      = m.countP (fun i => !i.2) := by
  induction m with
  | nil => simp [mapFind] at h
  | cons a rest ih =>
    obtain ⟨k1, v1⟩ := a
    by_cases hk : k1 = y
    · simp only [mapFind, hk, if_true, Option.some.injEq] at h
      subst h
      simp [mapModify, hk, List.countP_cons]
    · simp only [mapFind, hk, if_false] at h
      have ih2 := ih h
      simp only [mapModify, hk, if_false, List.countP_cons]
      omega

theorem DFTrLoop_ne_fuel {EdgeInfo : Type} (call : Int → StdMap Bool → Except Fault Bool)
    (myArray : StdMap Bool)
    (hcall : ∀ y, mapFind myArray y = some false → call y myArray ≠ .error .fuel)
    (l : List (DigraphEdge EdgeInfo)) (result : Bool) :
    Digraph.DFTrLoop call myArray l result ≠ .error .fuel := by
  induction l generalizing result with
  | nil => simp [Digraph.DFTrLoop]
  | cons e rest ih =>
    unfold Digraph.DFTrLoop
    cases hat : mapFind myArray e.toVertex with
    | none => simp [mapAt, hat]
    | some marked =>
      simp only [mapAt, hat]
      cases marked with
      | true => simpa using ih result
      | false =>
        simp only [if_true]
        have hc := hcall e.toVertex hat
        cases hr : call e.toVertex myArray with
        | error f =>
          rw [hr] at hc
          simpa using hc
        | ok r =>
          cases r with
          | true => simp
          | false => simpa using ih false

theorem DFTr_ne_fuel {VertexInfo EdgeInfo : Type} (g : Digraph VertexInfo EdgeInfo)
    (n : Nat) (x : Int) (myArray : StdMap Bool)
    (h : (mapModify x (fun _ => true) myArray).countP (fun i => !i.2) < n) :
    g.DFTr n x myArray ≠ .error .fuel := by
  induction n generalizing x myArray with
  | zero => omega
  | succ n ih =>
    unfold Digraph.DFTr
    cases hx : mapFind myArray x with
    | none => simp
    | some b =>
      simp only
      split_ifs with hcount
      · simp
      · cases hg : mapFind g.list x with
        | none => simp
        | some dv =>
          simp only
          apply DFTrLoop_ne_fuel
          intro y hy
          apply ih
          have := unmarked_mark_succ hy
          omega

theorem DFTLoop_ne_fuel {VertexInfo EdgeInfo : Type} (g : Digraph VertexInfo EdgeInfo)
    (myArray : StdMap Bool) (l : List (Int × Bool)) (hl : ∀ i ∈ l, i ∈ myArray) (result : Bool) :
    g.DFTLoop myArray l result ≠ .error .fuel := by
  induction l generalizing result with
  | nil => simp [Digraph.DFTLoop]
  | cons i rest ih =>
    have hrest : ∀ j ∈ rest, j ∈ myArray := fun j hj => hl j (List.mem_cons_of_mem _ hj)
    unfold Digraph.DFTLoop
    split_ifs with hi
    · have hmem : i ∈ myArray := hl i (List.mem_cons_self _ _)
      have hfind : ∃ b, mapFind myArray i.1 = some b := by
        clear ih hl hrest
        induction myArray with
        | nil => simp at hmem
        | cons a m ihm =>
          obtain ⟨k1, v1⟩ := a
          by_cases hk : k1 = i.1
          · exact ⟨v1, by simp [mapFind, hk]⟩
          · simp only [List.mem_cons] at hmem
            rcases hmem with hmem | hmem
            · exact absurd (by rw [hmem]) hk
            · obtain ⟨b, hb⟩ := ihm hmem
              exact ⟨b, by simp [mapFind, hk, hb]⟩
      obtain ⟨b, hb⟩ := hfind
      have hne := DFTr_ne_fuel g (mapSize myArray) i.1 myArray (unmarked_mark_lt_length hb)
      cases hr : g.DFTr (mapSize myArray) i.1 myArray with
      | error f =>
        rw [hr] at hne
        simpa using hne
      | ok r =>
        cases r with
        | false => simp
        | true => simpa using ih hrest true
    · exact ih hrest result

/-- The budget of nested calls that `DFT` hands to `DFTr` is enough on every
graph: `isStronglyConnected()` never ends by running out of it. -/
theorem isStronglyConnected_ne_fuel {VertexInfo EdgeInfo : Type}
    (g : Digraph VertexInfo EdgeInfo) : g.isStronglyConnected ≠ .error .fuel := by
  unfold Digraph.isStronglyConnected
  split_ifs
  · simp
  · exact DFTLoop_ne_fuel g _ _ (fun _ hi => hi) false

/-! ## The storage invariant along sequences of calls -/

theorem foldl_push_eq {α β : Type} (f : α → β) (l : List α) (acc : List β) :
    l.foldl (fun temp x => temp ++ [f x]) acc = acc ++ l.map f := by
  induction l generalizing acc with
  | nil => simp
  | cons a l ih => simp [ih]

theorem edges_eq_flatMap {VertexInfo EdgeInfo : Type} (g : Digraph VertexInfo EdgeInfo) :
    g.edges =
      g.list.flatMap (fun it => it.2.edges.map (fun e => (e.fromVertex, e.toVertex))) := by
  have key : ∀ (l : StdMap (DigraphVertex VertexInfo EdgeInfo)) (acc : List (Int × Int)),
      l.foldl
        (fun temp it =>
          it.2.edges.foldl (fun temp e => temp ++ [(e.fromVertex, e.toVertex)]) temp) acc
        = acc ++ l.flatMap (fun it => it.2.edges.map (fun e => (e.fromVertex, e.toVertex))) := by
    intro l
    induction l with
    | nil => intro acc; simp
    | cons a l ih =>
      intro acc
      simp only [List.foldl_cons, List.flatMap_cons]
      rw [ih, foldl_push_eq, List.append_assoc]
  have h := key g.list []
  simpa [Digraph.edges] using h

theorem edgesOf_eq_map {VertexInfo EdgeInfo : Type} (g : Digraph VertexInfo EdgeInfo)
    (vertex : Int) (dv : DigraphVertex VertexInfo EdgeInfo) (h : mapFind g.list vertex = some dv) :
    g.edgesOf vertex = .ok (dv.edges.map (fun e => (e.fromVertex, e.toVertex))) := by
  simp [Digraph.edgesOf, h, foldl_push_eq]

theorem mapFind_some_mem {T : Type} {m : StdMap T} {k : Int} {v : T}
    (h : mapFind m k = some v) : (k, v) ∈ m := by
  induction m with
  | nil => simp [mapFind] at h
  | cons a rest ih =>
    obtain ⟨k1, v1⟩ := a
    by_cases hk : k1 = k
    · simp [mapFind, hk] at h
      simp [hk, h]
    · simp [mapFind, hk] at h
      exact List.mem_cons_of_mem _ (ih h)

theorem mapInsert_mem {T : Type} {k : Int} {v : T} {m : StdMap T} {it : Int × T}
    (h : it ∈ mapInsert k v m) : it = (k, v) ∨ it ∈ m := by
  induction m with
  | nil => simpa [mapInsert] using h
  | cons a rest ih =>
    obtain ⟨k1, v1⟩ := a
    unfold mapInsert at h
    split_ifs at h with h1 h2
    · simpa using h
    · simp only [List.mem_cons] at h ⊢
      rcases h with h | h
      · exact Or.inl h
      · exact Or.inr (Or.inr h)
    · simp only [List.mem_cons] at h ⊢
      rcases h with h | h
      · exact Or.inr (Or.inl h)
      · rcases ih h with h | h
        · exact Or.inl h
        · exact Or.inr (Or.inr h)

theorem mapWF_cons {T : Type} (a : Int × T) (m : StdMap T) :
    mapWF (a :: m) ↔ (∀ it ∈ m, a.1 < it.1) ∧ mapWF m := by
  simp [mapWF, List.pairwise_cons]

theorem mapInsert_wf {T : Type} (k : Int) (v : T) {m : StdMap T} (h : mapWF m) :
    mapWF (mapInsert k v m) := by
  induction m with
  | nil => simp [mapInsert, mapWF]
  | cons a rest ih =>
    obtain ⟨k1, v1⟩ := a
    rw [mapWF_cons] at h
    obtain ⟨hlt, hrest⟩ := h
    unfold mapInsert
    split_ifs with h1 h2
    · rw [mapWF_cons, mapWF_cons]
      refine ⟨?_, hlt, hrest⟩
      intro it hit
      simp only [List.mem_cons] at hit
      rcases hit with rfl | hit
      · exact h1
      · exact lt_trans h1 (hlt it hit)
    · rw [mapWF_cons]
      subst h2
      exact ⟨hlt, hrest⟩
    · rw [mapWF_cons]
      refine ⟨?_, ih hrest⟩
      intro it hit
      rcases mapInsert_mem hit with rfl | hit
      · show k1 < k
        omega
      · exact hlt it hit

theorem mapErase_sublist {T : Type} (k : Int) (m : StdMap T) : (mapErase k m).Sublist m := by
  induction m with
  | nil => simp [mapErase]
  | cons a rest ih =>
    obtain ⟨k1, v1⟩ := a
    unfold mapErase
    split_ifs
    · exact List.sublist_cons_self _ _
    · exact ih.cons₂ _

theorem mapErase_wf {T : Type} (k : Int) {m : StdMap T} (h : mapWF m) : mapWF (mapErase k m) :=
  List.Pairwise.sublist ((mapErase_sublist k m).map Prod.fst) h

theorem mapModify_keys {T : Type} (k : Int) (f : T → T) (m : StdMap T) :
    (mapModify k f m).map Prod.fst = m.map Prod.fst := by
  induction m with
  | nil => simp [mapModify]
  | cons a rest ih =>
    obtain ⟨k1, v1⟩ := a
    unfold mapModify
    split_ifs
    · simp
    · simp [ih]

theorem mapModify_wf {T : Type} (k : Int) (f : T → T) {m : StdMap T} (h : mapWF m) :
    mapWF (mapModify k f m) := by
  unfold mapWF
  rw [mapModify_keys]
  exact h

theorem mapModify_mem {T : Type} {k : Int} {f : T → T} {m : StdMap T} {it : Int × T}
    (h : it ∈ mapModify k f m) : it ∈ m ∨ ∃ v, mapFind m k = some v ∧ it = (k, f v) := by
  induction m with
  | nil => simp [mapModify] at h
  | cons a rest ih =>
    obtain ⟨k1, v1⟩ := a
    unfold mapModify at h
    split_ifs at h with h1
    · simp only [List.mem_cons] at h
      rcases h with h | h
      · exact Or.inr ⟨v1, by simp [mapFind, h1], by rw [h, h1]⟩
      · exact Or.inl (List.mem_cons_of_mem _ h)
    · simp only [List.mem_cons] at h
      rcases h with h | h
      · exact Or.inl (by rw [h]; exact List.mem_cons_self _ _)
      · rcases ih h with h | ⟨v, hv, hit⟩
        · exact Or.inl (List.mem_cons_of_mem _ h)
        · exact Or.inr ⟨v, by simp [mapFind, h1, hv], hit⟩

theorem findEdge_none {EdgeInfo : Type} {u v : Int} {l : List (DigraphEdge EdgeInfo)}
    (h : Digraph.findEdge u v l = none) :
    ∀ e ∈ l, ¬ (e.fromVertex = u ∧ e.toVertex = v) := by
  induction l with
  | nil => simp
  | cons a rest ih =>
    unfold Digraph.findEdge at h
    split_ifs at h with h1
    intro e he
    simp only [List.mem_cons] at he
    rcases he with rfl | he
    · exact h1
    · exact ih h e he

theorem eraseEdge_sublist {EdgeInfo : Type} {u v : Int} {l l2 : List (DigraphEdge EdgeInfo)}
    (h : Digraph.eraseEdge u v l = some l2) : l2.Sublist l := by
  induction l generalizing l2 with
  | nil => simp [Digraph.eraseEdge] at h
  | cons a rest ih =>
    unfold Digraph.eraseEdge at h
    split_ifs at h with h1
    · simp only [Option.some.injEq] at h
      subst h
      exact List.sublist_cons_self _ _
    · simp only [Option.map_eq_some'] at h
      obtain ⟨l3, hl3, rfl⟩ := h
      exact (ih hl3).cons₂ _

theorem EntryOK_push {VertexInfo EdgeInfo : Type} {k toVertex : Int} (einfo : EdgeInfo)
    {dv : DigraphVertex VertexInfo EdgeInfo} (h : EntryOK k dv)
    (hnone : Digraph.findEdge k toVertex dv.edges = none) :
    EntryOK k { dv with edges := dv.edges ++ [⟨k, toVertex, einfo⟩] } := by
  obtain ⟨hfrom, hnodup⟩ := h
  constructor
  · intro e he
    simp only [List.mem_append, List.mem_singleton] at he
    rcases he with he | rfl
    · exact hfrom e he
    · rfl
  · simp only [List.map_append, List.map_cons, List.map_nil]
    rw [List.nodup_append]
    refine ⟨hnodup, List.nodup_singleton _, ?_⟩
    rw [List.disjoint_left]
    intro a ha hmem
    simp only [List.mem_singleton] at hmem
    subst hmem
    simp only [List.mem_map] at ha
    obtain ⟨e, he, hto⟩ := ha
    exact findEdge_none hnone e he ⟨hfrom e he, hto⟩

theorem EntryOK_sublist {VertexInfo EdgeInfo : Type} {k : Int}
    {dv : DigraphVertex VertexInfo EdgeInfo} {l : List (DigraphEdge EdgeInfo)}
    (h : EntryOK k dv) (hs : l.Sublist dv.edges) : EntryOK k { dv with edges := l } :=
  ⟨fun e he => h.1 e (hs.subset he), List.Nodup.sublist (hs.map _) h.2⟩

theorem Inv_empty {VertexInfo EdgeInfo : Type} : Inv (Digraph.empty : Digraph VertexInfo EdgeInfo) := by
  simp [Inv, Digraph.empty, mapWF]

theorem Inv_addVertex {VertexInfo EdgeInfo : Type} {g : Digraph VertexInfo EdgeInfo} (h : Inv g)
    (vertex : Int) (vinfo : VertexInfo) : Inv (g.addVertex vertex vinfo).2 := by
  unfold Digraph.addVertex
  split
  · refine ⟨mapInsert_wf _ _ h.1, ?_⟩
    intro it hit
    rcases mapInsert_mem hit with rfl | hit
    · simp [EntryOK]
    · exact h.2 it hit
  · exact h

theorem Inv_addEdge {VertexInfo EdgeInfo : Type} {g : Digraph VertexInfo EdgeInfo} (h : Inv g)
    (fromVertex toVertex : Int) (einfo : EdgeInfo) :
    Inv (g.addEdge fromVertex toVertex einfo).2 := by
  unfold Digraph.addEdge
  split
  · exact h
  · rename_i dv hfind
    split
    · exact h
    · rename_i hnone
      refine ⟨mapModify_wf _ _ h.1, ?_⟩
      intro it hit
      rcases mapModify_mem hit with hit | ⟨v, hv, rfl⟩
      · exact h.2 it hit
      · rw [hfind] at hv
        simp only [Option.some.injEq] at hv
        subst hv
        exact EntryOK_push einfo (h.2 _ (mapFind_some_mem hfind)) hnone

theorem Inv_removeVertex {VertexInfo EdgeInfo : Type} {g : Digraph VertexInfo EdgeInfo} (h : Inv g)
    (vertex : Int) : Inv (g.removeVertex vertex).2 := by
  unfold Digraph.removeVertex
  split
  · exact h
  · exact ⟨mapErase_wf _ h.1, fun it hit => h.2 it ((mapErase_sublist _ _).subset hit)⟩

theorem Inv_removeEdge {VertexInfo EdgeInfo : Type} {g : Digraph VertexInfo EdgeInfo} (h : Inv g)
    (fromVertex toVertex : Int) : Inv (g.removeEdge fromVertex toVertex).2 := by
  unfold Digraph.removeEdge
  split
  · exact h
  · rename_i dv hfind
    split
    · rename_i l hl
      refine ⟨mapModify_wf _ _ h.1, ?_⟩
      intro it hit
      rcases mapModify_mem hit with hit | ⟨v, hv, rfl⟩
      · exact h.2 it hit
      · rw [hfind] at hv
        simp only [Option.some.injEq] at hv
        subst hv
        exact EntryOK_sublist (h.2 _ (mapFind_some_mem hfind)) (eraseEdge_sublist hl)
    · exact h

theorem Inv_run {VertexInfo EdgeInfo : Type} {g : Digraph VertexInfo EdgeInfo} (h : Inv g)
    (c : Call VertexInfo EdgeInfo) : Inv (c.run g).2 := by
  cases c with
  | addVertex vertex vinfo => exact Inv_addVertex h vertex vinfo
  | addEdge fromVertex toVertex einfo => exact Inv_addEdge h fromVertex toVertex einfo
  | removeVertex vertex => exact Inv_removeVertex h vertex
  | removeEdge fromVertex toVertex => exact Inv_removeEdge h fromVertex toVertex

theorem Inv_runCalls {VertexInfo EdgeInfo : Type} (calls : List (Call VertexInfo EdgeInfo))
    {g : Digraph VertexInfo EdgeInfo} (h : Inv g) : Inv (runCalls g calls) := by
  induction calls generalizing g with
  | nil => exact h
  | cons c rest ih => exact ih (Inv_run h c)

theorem Inv_edges_nodup {VertexInfo EdgeInfo : Type} {g : Digraph VertexInfo EdgeInfo}
    (h : Inv g) : g.edges.Nodup := by
  rw [edges_eq_flatMap, List.nodup_flatMap]
  obtain ⟨hwf, hentries⟩ := h
  constructor
  · intro it hit
    apply List.Nodup.of_map Prod.snd
    rw [List.map_map]
    exact (hentries it hit).2
  · unfold mapWF at hwf
    rw [List.pairwise_map] at hwf
    refine List.Pairwise.imp_of_mem ?_ hwf
    intro a b ha hb hlt
    show List.Disjoint _ _
    rw [List.disjoint_left]
    intro p hpa hpb
    simp only [List.mem_map] at hpa hpb
    obtain ⟨e1, he1, rfl⟩ := hpa
    obtain ⟨e2, he2, heq⟩ := hpb
    have h1 := (hentries a ha).1 e1 he1
    have h2 := (hentries b hb).1 e2 he2
    simp only [Prod.mk.injEq] at heq
    omega

/-- C10: invariant I2.  In the graph obtained from the empty graph by any
sequence of `addVertex`, `addEdge`, `removeVertex` and `removeEdge` calls, no
ordered pair occurs twice in `edges()`, every edge stored in the
outgoing list of a vertex `u` has `fromVertex` equal to `u`, and every pair
returned by `edges(u)` has first component `u`. -/
theorem no_parallel_edges_after_calls {VertexInfo EdgeInfo : Type}
    (calls : List (Call VertexInfo EdgeInfo)) :
    (runCalls Digraph.empty calls).edges.Nodup ∧
    (∀ (u : Int) (dv : DigraphVertex VertexInfo EdgeInfo),
      (u, dv) ∈ (runCalls Digraph.empty calls).list → ∀ e ∈ dv.edges, e.fromVertex = u) ∧
    (∀ (u : Int) (l : List (Int × Int)),
      (runCalls Digraph.empty calls).edgesOf u = .ok l → ∀ p ∈ l, p.1 = u) := by
  have hinv : Inv (runCalls (Digraph.empty : Digraph VertexInfo EdgeInfo) calls) :=
    Inv_runCalls calls Inv_empty
  refine ⟨?_, ?_, ?_⟩
  · exact Inv_edges_nodup hinv
  · intro u dv hmem e he
    exact (hinv.2 (u, dv) hmem).1 e he
  · intro u l hl p hp
    cases hfind : mapFind (runCalls (Digraph.empty : Digraph VertexInfo EdgeInfo) calls).list u with
    | none => simp [Digraph.edgesOf, hfind] at hl
    | some dv =>
      rw [edgesOf_eq_map _ _ _ hfind] at hl
      simp only [Except.ok.injEq] at hl
      subst hl
      simp only [List.mem_map] at hp
      obtain ⟨e, he, rfl⟩ := hp
      exact (hinv.2 (u, dv) (mapFind_some_mem hfind)).1 e he

/-- Witness for C10: a sequence of calls that stores three edges, with one
rejected duplicate and one removal in between. -/
theorem no_parallel_edges_after_calls_witness :
    (runCalls (Digraph.empty : Digraph Unit Unit)
      [.addVertex 1 (), .addVertex 2 (), .addEdge 1 2 (), .addEdge 1 2 (), .addEdge 2 1 (),
       .removeEdge 1 2, .addEdge 1 2 (), .addEdge 1 1 ()]).edges = [(1, 2), (1, 1), (2, 1)] ∧
    (runCalls (Digraph.empty : Digraph Unit Unit)
      [.addVertex 1 (), .addVertex 2 (), .addEdge 1 2 (), .addEdge 1 2 (), .addEdge 2 1 (),
       .removeEdge 1 2, .addEdge 1 2 (), .addEdge 1 1 ()]).edges.Nodup :=
  ⟨by decide, (no_parallel_edges_after_calls _).1⟩

/-! ## Moving, the empty graph, the triangle, the reasons of the exceptions -/

/-- C15 (counterexample): move assignment into a graph that is not empty leaves
the source with the former contents of the target.  With the target holding
vertices 1, 2 and the edge 1->2 and the source holding the single vertex 1,
the source afterwards has two vertices and one edge. -/
theorem moveAssign_source_not_emptied :
    (Digraph.moveAssign oneEdge lonely).2.vertices = [1, 2] ∧
    (Digraph.moveAssign oneEdge lonely).2.edges = [(1, 2)] ∧
    ¬ ((Digraph.moveAssign oneEdge lonely).2.vertices = [] ∧
        (Digraph.moveAssign oneEdge lonely).2.edges = []) := by
  decide

/-- C15 (amended): move construction from `source` yields a graph equal to
`source` and leaves `source` without vertices and edges; move assignment
`target = move(source)` makes the target equal to the former source and
leaves the source equal to the former target. -/
theorem move_exchanges_contents (VertexInfo EdgeInfo : Type)
    (target source : Digraph VertexInfo EdgeInfo) :
    (Digraph.moveConstruct source).1 = source ∧
    (Digraph.moveConstruct source).2.vertices = [] ∧
    (Digraph.moveConstruct source).2.edges = [] ∧
    (Digraph.moveAssign target source).1 = source ∧
    (Digraph.moveAssign target source).2 = target :=
  ⟨rfl, rfl, rfl, rfl, rfl⟩

/-- C16: on the graph built from the empty graph by adding the vertices 1, 2, 3
and the edges 1->2, 2->3, 3->1, `isStronglyConnected()` returns true; after
`removeEdge(3, 1)`, which returns normally, it returns false. -/
theorem triangle_connected_until_edge_removed :
    triangle.vertices = [1, 2, 3] ∧ triangle.edges = [(1, 2), (2, 3), (3, 1)] ∧
    triangle.isStronglyConnected = .ok true ∧
    (triangle.removeEdge 3 1).1 = .ok () ∧
    (triangle.removeEdge 3 1).2.edges = [(1, 2), (2, 3)] ∧
    (triangle.removeEdge 3 1).2.isStronglyConnected = .ok false := by
  decide

/-- C17 (counterexample): on the graph whose only vertex is 1, `edgeInfo(2, 1)`
(unknown vertex), `edgeInfo(1, 2)` (unknown edge) and `addVertex(1)`
(duplicate vertex) throw one and the same exception. -/
theorem edgeInfo_failures_coincide :
    lonely.vertices = [1] ∧ lonely.edges = [] ∧
    lonely.edgeInfo 2 1 = .error (.DigraphException "A key already exists") ∧
    lonely.edgeInfo 1 2 = .error (.DigraphException "A key already exists") ∧
    (lonely.addVertex 1 ()).1 = .error (.DigraphException "A key already exists") := by
  decide

/-- C18: on the default-constructed graph `isStronglyConnected()` returns
false, `vertices()` and `edges()` are empty, `vertexCount()` and `edgeCount()`
are 0. -/
theorem empty_graph_queries (VertexInfo EdgeInfo : Type) :
    (Digraph.empty : Digraph VertexInfo EdgeInfo).isStronglyConnected = .ok false ∧
    (Digraph.empty : Digraph VertexInfo EdgeInfo).vertices = [] ∧
    (Digraph.empty : Digraph VertexInfo EdgeInfo).edges = [] ∧
    (Digraph.empty : Digraph VertexInfo EdgeInfo).vertexCount = 0 ∧
    (Digraph.empty : Digraph VertexInfo EdgeInfo).edgeCount = 0 :=
  ⟨rfl, rfl, rfl, rfl, rfl⟩

/-! ## Queries in closed form -/

theorem Inv_of_reachable {VertexInfo EdgeInfo : Type} {g : Digraph VertexInfo EdgeInfo}
    (h : Reachable g) : Inv g := by
  obtain ⟨calls, rfl⟩ := h
  exact Inv_runCalls calls Inv_empty

theorem vertices_eq_keys {VertexInfo EdgeInfo : Type} (g : Digraph VertexInfo EdgeInfo) :
    g.vertices = g.list.map Prod.fst := by
  simp [Digraph.vertices, foldl_push_eq]

theorem mapFind_eq_none_iff {T : Type} (m : StdMap T) (k : Int) :
    mapFind m k = none ↔ k ∉ m.map Prod.fst := by
  induction m with
  | nil => simp [mapFind]
  | cons a rest ih =>
    obtain ⟨k1, v1⟩ := a
    by_cases hk : k1 = k
    · simp [mapFind, hk]
    · have hk2 : ¬ k = k1 := fun h => hk h.symm
      simp [mapFind, hk, hk2, ih]

theorem not_mem_vertices_iff {VertexInfo EdgeInfo : Type} (g : Digraph VertexInfo EdgeInfo)
    (v : Int) : v ∉ g.vertices ↔ mapFind g.list v = none := by
  rw [vertices_eq_keys, mapFind_eq_none_iff]

theorem mem_vertices_iff {VertexInfo EdgeInfo : Type} (g : Digraph VertexInfo EdgeInfo)
    (v : Int) : v ∈ g.vertices ↔ ∃ dv, mapFind g.list v = some dv := by
  have h := not_mem_vertices_iff g v
  cases hf : mapFind g.list v with
  | none =>
    rw [hf] at h
    simp only [iff_true] at h
    simp [h]
  | some dv =>
    rw [hf] at h
    simp only [reduceCtorEq, iff_false, not_not] at h
    simp [h]

theorem mem_edges_iff {VertexInfo EdgeInfo : Type} (g : Digraph VertexInfo EdgeInfo)
    (p : Int × Int) :
    p ∈ g.edges ↔ ∃ it ∈ g.list, ∃ e ∈ it.2.edges, (e.fromVertex, e.toVertex) = p := by
  rw [edges_eq_flatMap]
  simp [List.mem_flatMap]

theorem findEdge_some {EdgeInfo : Type} {u v : Int} {l : List (DigraphEdge EdgeInfo)}
    {e : DigraphEdge EdgeInfo} (h : Digraph.findEdge u v l = some e) :
    e ∈ l ∧ e.fromVertex = u ∧ e.toVertex = v := by
  induction l with
  | nil => simp [Digraph.findEdge] at h
  | cons a rest ih =>
    unfold Digraph.findEdge at h
    split_ifs at h with h1
    · simp only [Option.some.injEq] at h
      subst h
      exact ⟨List.mem_cons_self _ _, h1.1, h1.2⟩
    · obtain ⟨hm, hf, ht⟩ := ih h
      exact ⟨List.mem_cons_of_mem _ hm, hf, ht⟩

theorem findEdge_eq_none_iff {EdgeInfo : Type} (u v : Int) (l : List (DigraphEdge EdgeInfo)) :
    Digraph.findEdge u v l = none ↔ ∀ e ∈ l, ¬ (e.fromVertex = u ∧ e.toVertex = v) := by
  constructor
  · exact findEdge_none
  · intro h
    cases hf : Digraph.findEdge u v l with
    | none => rfl
    | some e =>
      obtain ⟨hm, hfrom, hto⟩ := findEdge_some hf
      exact absurd ⟨hfrom, hto⟩ (h e hm)

theorem eraseEdge_eq_none_iff {EdgeInfo : Type} (u v : Int) (l : List (DigraphEdge EdgeInfo)) :
    Digraph.eraseEdge u v l = none ↔ ∀ e ∈ l, ¬ (e.fromVertex = u ∧ e.toVertex = v) := by
  induction l with
  | nil => simp [Digraph.eraseEdge]
  | cons a rest ih =>
    unfold Digraph.eraseEdge
    split_ifs with h1
    · simp only [reduceCtorEq, List.mem_cons, forall_eq_or_imp, false_iff, not_and, not_forall]
      intro h
      exact absurd h1.2 (h h1.1)
    · simp only [Option.map_eq_none', ih, List.mem_cons, forall_eq_or_imp]
      constructor
      · intro h
        exact ⟨h1, h⟩
      · intro h
        exact h.2

theorem mapFind_of_mem {T : Type} {m : StdMap T} (hwf : mapWF m) {it : Int × T}
    (h : it ∈ m) : mapFind m it.1 = some it.2 := by
  induction m with
  | nil => simp at h
  | cons a rest ih =>
    obtain ⟨k1, v1⟩ := a
    rw [mapWF_cons] at hwf
    simp only [List.mem_cons] at h
    rcases h with rfl | h
    · simp [mapFind]
    · have hlt := hwf.1 it h
      have hne : ¬ k1 = it.1 := by
        simp only at hlt
        omega
      simp only [mapFind, hne, if_false]
      exact ih hwf.2 h

/-- Under the storage invariant a pair of `edges()` with first component `u` is
stored in the edge list that `list.find(u)` points to. -/
theorem mem_edges_of_inv {VertexInfo EdgeInfo : Type} {g : Digraph VertexInfo EdgeInfo}
    (hinv : Inv g) {u v : Int} (h : (u, v) ∈ g.edges) :
    ∃ dv, mapFind g.list u = some dv ∧ ∃ e ∈ dv.edges, e.fromVertex = u ∧ e.toVertex = v := by
  rw [mem_edges_iff] at h
  obtain ⟨it, hit, e, he, hp⟩ := h
  simp only [Prod.mk.injEq] at hp
  have hkey : it.1 = u := by
    rw [← (hinv.2 it hit).1 e he]
    exact hp.1
  have hfind : ∃ dv, mapFind g.list u = some dv := by
    rw [← mem_vertices_iff, vertices_eq_keys]
    exact List.mem_map.mpr ⟨it, hit, hkey⟩
  obtain ⟨dv, hdv⟩ := hfind
  have hmem := mapFind_some_mem hdv
  have hsame : dv = it.2 := by
    have h2 := mapFind_of_mem hinv.1 hit
    rw [hkey, hdv] at h2
    exact Option.some.inj h2
  exact ⟨dv, hdv, e, hsame ▸ he, hp.1, hp.2⟩

/-! ## Failing calls, `addVertex` on a new key -/

theorem failed_call_keeps_graph {VertexInfo EdgeInfo : Type} (g : Digraph VertexInfo EdgeInfo)
    (c : Call VertexInfo EdgeInfo) (f : Fault) (h : (c.run g).1 = .error f) : (c.run g).2 = g := by
  cases c with
  | addVertex vertex vinfo =>
    simp only [Call.run, Digraph.addVertex] at h ⊢
    split at h
    · cases h
    · rename_i hfind
      simp [hfind]
  | addEdge fromVertex toVertex einfo =>
    simp only [Call.run, Digraph.addEdge] at h ⊢
    split at h
    · rename_i hfind
      simp [hfind]
    · rename_i dv hfind
      split at h
      · rename_i hedge
        simp [hfind, hedge]
      · cases h
  | removeVertex vertex =>
    simp only [Call.run, Digraph.removeVertex] at h ⊢
    split at h
    · rename_i hfind
      simp [hfind]
    · cases h
  | removeEdge fromVertex toVertex =>
    simp only [Call.run, Digraph.removeEdge] at h ⊢
    split at h
    · rename_i hfind
      simp [hfind]
    · rename_i dv hfind
      split at h
      · cases h
      · rename_i hedge
        simp [hfind, hedge]

/-- C11: a failing mutation leaves the graph as it was.  On every graph built
by calls from the empty graph, a call of a mutating member function that
throws leaves the graph equal to the graph before the call; and `addVertex` on
an existing key, `addEdge` with an absent source vertex or with a pair already
in `edges()`, `removeVertex` on an absent key, `removeEdge` with an absent
source vertex or with a pair not in `edges()` each throw a `DigraphException`
and leave the graph unchanged. -/
theorem failing_mutation_leaves_graph {VertexInfo EdgeInfo : Type}
    (g : Digraph VertexInfo EdgeInfo) (hg : Reachable g) (u v : Int)
    (vinfo : VertexInfo) (einfo : EdgeInfo) :
    (∀ (c : Call VertexInfo EdgeInfo) (f : Fault), (c.run g).1 = .error f → (c.run g).2 = g) ∧
    (u ∈ g.vertices →
      g.addVertex u vinfo = (.error (.DigraphException "A key already exists"), g)) ∧
    (u ∉ g.vertices →
      g.addEdge u v einfo = (.error (.DigraphException "did not find the key"), g)) ∧
    ((u, v) ∈ g.edges →
      g.addEdge u v einfo =
        (.error (.DigraphException "the Edge info was already inserted into the graph"), g)) ∧
    (u ∉ g.vertices →
      g.removeVertex u = (.error (.DigraphException "did not find the key"), g)) ∧
    (u ∉ g.vertices →
      g.removeEdge u v = (.error (.DigraphException "did not find the key"), g)) ∧
    (u ∈ g.vertices → (u, v) ∉ g.edges →
      g.removeEdge u v = (.error (.DigraphException "did not find the key"), g)) := by
  have hinv := Inv_of_reachable hg
  refine ⟨fun c f h => failed_call_keeps_graph g c f h, ?_, ?_, ?_, ?_, ?_, ?_⟩
  · intro hu
    obtain ⟨dv, hdv⟩ := (mem_vertices_iff g u).mp hu
    simp [Digraph.addVertex, hdv]
  · intro hu
    have hnone := (not_mem_vertices_iff g u).mp hu
    simp [Digraph.addEdge, hnone]
  · intro huv
    obtain ⟨dv, hdv, e, he, hfrom, hto⟩ := mem_edges_of_inv hinv huv
    have hsome : Digraph.findEdge u v dv.edges ≠ none := by
      rw [Ne, findEdge_eq_none_iff]
      intro hall
      exact hall e he ⟨hfrom, hto⟩
    cases hf : Digraph.findEdge u v dv.edges with
    | none => exact absurd hf hsome
    | some e2 => simp [Digraph.addEdge, hdv, hf]
  · intro hu
    have hnone := (not_mem_vertices_iff g u).mp hu
    simp [Digraph.removeVertex, hnone]
  · intro hu
    have hnone := (not_mem_vertices_iff g u).mp hu
    simp [Digraph.removeEdge, hnone]
  · intro hu huv
    obtain ⟨dv, hdv⟩ := (mem_vertices_iff g u).mp hu
    have hnone : Digraph.eraseEdge u v dv.edges = none := by
      rw [eraseEdge_eq_none_iff]
      intro e he hmatch
      apply huv
      rw [mem_edges_iff]
      exact ⟨(u, dv), mapFind_some_mem hdv, e, he, by rw [hmatch.1, hmatch.2]⟩
    simp [Digraph.removeEdge, hdv, hnone]

/-- Witness for C11: the graph with vertices 1, 2 and the edge 1->2, with
`u = 1` and `v = 2`. -/
theorem failing_mutation_leaves_graph_witness :
    Reachable oneEdge ∧
    ((1 : Int) ∈ oneEdge.vertices →
      oneEdge.addVertex 1 () = (.error (.DigraphException "A key already exists"), oneEdge)) ∧
    (((1 : Int), (2 : Int)) ∈ oneEdge.edges →
      oneEdge.addEdge 1 2 () =
        (.error (.DigraphException "the Edge info was already inserted into the graph"),
          oneEdge)) :=
  ⟨⟨_, rfl⟩,
    (failing_mutation_leaves_graph oneEdge ⟨_, rfl⟩ 1 2 () ()).2.1,
    (failing_mutation_leaves_graph oneEdge ⟨_, rfl⟩ 1 2 () ()).2.2.2.1⟩

theorem mapFind_mapInsert_self {T : Type} (k : Int) (x : T) (m : StdMap T) :
    mapFind (mapInsert k x m) k = some x := by
  induction m with
  | nil => simp [mapInsert, mapFind]
  | cons a rest ih =>
    obtain ⟨k1, v1⟩ := a
    unfold mapInsert
    split_ifs with h1 h2
    · simp [mapFind]
    · simp [mapFind]
    · have hne : ¬ k1 = k := fun h => h2 h.symm
      simp [mapFind, hne, ih]

theorem mapInsert_split {T : Type} (k : Int) (x : T) {m : StdMap T} (h : mapFind m k = none) :
    ∃ l1 l2, m = l1 ++ l2 ∧ mapInsert k x m = l1 ++ (k, x) :: l2 := by
  induction m with
  | nil => exact ⟨[], [], rfl, rfl⟩
  | cons a rest ih =>
    obtain ⟨k1, v1⟩ := a
    have hne : ¬ k1 = k := by
      intro hk
      simp [mapFind, hk] at h
    simp only [mapFind, hne, if_false] at h
    unfold mapInsert
    split_ifs with h1 h2
    · exact ⟨[], (k1, v1) :: rest, rfl, rfl⟩
    · exact absurd h2.symm hne
    · obtain ⟨l1, l2, hm, hins⟩ := ih h
      exact ⟨(k1, v1) :: l1, l2, by rw [hm]; rfl, by rw [hins]; rfl⟩

theorem edgeCount_eq_length_edges {VertexInfo EdgeInfo : Type}
    (g : Digraph VertexInfo EdgeInfo) : g.edgeCount = g.edges.length := by
  have key : ∀ (l : StdMap (DigraphVertex VertexInfo EdgeInfo)) (c : Nat),
      l.foldl (fun count iteratorList =>
          iteratorList.2.edges.foldl (fun count _ => count + 1) count) c
        = c + (l.flatMap
            (fun it => it.2.edges.map (fun e => (e.fromVertex, e.toVertex)))).length := by
    intro l
    induction l with
    | nil => intro c; simp
    | cons a l ih =>
      intro c
      simp only [List.foldl_cons, List.flatMap_cons, List.length_append, List.length_map]
      rw [ih, foldl_count_eq]
      omega
  rw [edges_eq_flatMap]
  simpa [Digraph.edgeCount] using key g.list 0

/-- C12: on a graph that does not contain the key `v`, `addVertex(v, info)`
returns normally; afterwards `vertexInfo(v)` returns `info`, `v` occurs exactly
once in `vertices()`, `vertexCount()` is one more than before and `edges()` is
what it was before. -/
theorem addVertex_new_key {VertexInfo EdgeInfo : Type} (g : Digraph VertexInfo EdgeInfo)
    (v : Int) (info : VertexInfo) (h : v ∉ g.vertices) :
    (g.addVertex v info).1 = .ok () ∧
    (g.addVertex v info).2.vertexInfo v = .ok info ∧
    (g.addVertex v info).2.vertices.count v = 1 ∧
    (g.addVertex v info).2.vertexCount = g.vertexCount + 1 ∧
    (g.addVertex v info).2.edges = g.edges := by
  have hnone := (not_mem_vertices_iff g v).mp h
  have hrun : g.addVertex v info = (.ok (), ⟨mapInsert v ⟨info, []⟩ g.list⟩) := by
    simp [Digraph.addVertex, hnone]
  obtain ⟨l1, l2, hm, hins⟩ := mapInsert_split v (⟨info, []⟩ : DigraphVertex VertexInfo EdgeInfo) hnone
  rw [vertices_eq_keys, hm] at h
  simp only [List.map_append, List.mem_append, not_or] at h
  rw [hrun]
  refine ⟨rfl, ?_, ?_, ?_, ?_⟩
  · simp [Digraph.vertexInfo, mapFind_mapInsert_self]
  · rw [vertices_eq_keys]
    simp only [hins, List.map_append, List.map_cons, List.count_append, List.count_cons_self]
    rw [List.count_eq_zero_of_not_mem h.1, List.count_eq_zero_of_not_mem h.2]
  · simp only [Digraph.vertexCount, mapSize, hins]
    rw [hm]
    simp only [List.length_append, List.length_cons]
    omega
  · rw [edges_eq_flatMap, edges_eq_flatMap]
    simp only [hins]
    rw [hm]
    simp

/-- Witness for C12: `addVertex(2, info)` on the graph whose only vertex is 1. -/
theorem addVertex_new_key_witness :
    (2 : Int) ∉ lonely.vertices ∧ (lonely.addVertex 2 ()).2.vertices.count 2 = 1 :=
  ⟨by decide, (addVertex_new_key lonely 2 () (by decide)).2.2.1⟩

/-! ## `addEdge` on a new pair -/

theorem mapModify_split {T : Type} (k : Int) (f : T → T) {m : StdMap T} {x : T}
    (h : mapFind m k = some x) :
    ∃ l1 l2, m = l1 ++ (k, x) :: l2 ∧ mapModify k f m = l1 ++ (k, f x) :: l2 := by
  induction m with
  | nil => simp [mapFind] at h
  | cons a rest ih =>
    obtain ⟨k1, v1⟩ := a
    by_cases hk : k1 = k
    · simp only [mapFind, hk, if_true, Option.some.injEq] at h
      subst h
      subst hk
      exact ⟨[], rest, rfl, by simp [mapModify]⟩
    · simp only [mapFind, hk, if_false] at h
      obtain ⟨l1, l2, hm, hmod⟩ := ih h
      exact ⟨(k1, v1) :: l1, l2, by rw [hm]; rfl, by simp [mapModify, hk, hmod]⟩

theorem mapFind_mapModify_self {T : Type} (k : Int) (f : T → T) {m : StdMap T} {x : T}
    (h : mapFind m k = some x) : mapFind (mapModify k f m) k = some (f x) := by
  induction m with
  | nil => simp [mapFind] at h
  | cons a rest ih =>
    obtain ⟨k1, v1⟩ := a
    by_cases hk : k1 = k
    · simp only [mapFind, hk, if_true, Option.some.injEq] at h
      simp [mapModify, mapFind, hk, h]
    · simp only [mapFind, hk, if_false] at h
      simp [mapModify, mapFind, hk, ih h]

theorem mapFind_mapModify_ne {T : Type} (k : Int) (f : T → T) (m : StdMap T) {a : Int}
    (h : a ≠ k) : mapFind (mapModify k f m) a = mapFind m a := by
  induction m with
  | nil => simp [mapModify]
  | cons b rest ih =>
    obtain ⟨k1, v1⟩ := b
    by_cases hk : k1 = k
    · have hne : ¬ k1 = a := by
        rw [hk]
        exact fun h2 => h h2.symm
      simp only [mapModify, hk, if_true, mapFind]
      rw [hk] at hne
      simp only [hne, if_false]
    · simp only [mapModify, hk, if_false, mapFind]
      split_ifs
      · rfl
      · exact ih

theorem findEdge_append {EdgeInfo : Type} (a b : Int) (l1 l2 : List (DigraphEdge EdgeInfo)) :
    Digraph.findEdge a b (l1 ++ l2) =
      match Digraph.findEdge a b l1 with
      | some e => some e
      | none => Digraph.findEdge a b l2 := by
  induction l1 with
  | nil => simp [Digraph.findEdge]
  | cons x rest ih =>
    simp only [List.cons_append, Digraph.findEdge]
    split_ifs with h1
    · rfl
    · exact ih

theorem findEdge_skip {EdgeInfo : Type} (a b : Int) (l1 l3 : List (DigraphEdge EdgeInfo))
    (e : DigraphEdge EdgeInfo) (h : ¬ (e.fromVertex = a ∧ e.toVertex = b)) :
    Digraph.findEdge a b (l1 ++ e :: l3) = Digraph.findEdge a b (l1 ++ l3) := by
  rw [findEdge_append, findEdge_append]
  simp only [Digraph.findEdge, h, if_false]

theorem edges_of_split {VertexInfo EdgeInfo : Type} (l1 l2 : StdMap (DigraphVertex VertexInfo EdgeInfo))
    (k : Int) (dv : DigraphVertex VertexInfo EdgeInfo) :
    (Digraph.mk (l1 ++ (k, dv) :: l2)).edges =
      (Digraph.mk l1).edges ++ dv.edges.map (fun e => (e.fromVertex, e.toVertex))
        ++ (Digraph.mk l2).edges := by
  simp [edges_eq_flatMap]

/-- C13: on a graph that contains the vertices `u` and `v` and no edge `(u, v)`,
`addEdge(u, v, info)` returns normally; afterwards `edgeInfo(u, v)` returns
`info`, the pair `(u, v)` is in `edges(u)` and in `edges()`, `edgeCount()` is
one more than before, `edgeInfo` of every other pair and `vertexInfo` of every
vertex return what they returned before. -/
theorem addEdge_new_pair {VertexInfo EdgeInfo : Type} (g : Digraph VertexInfo EdgeInfo)
    (u v : Int) (info : EdgeInfo) (hu : u ∈ g.vertices) (_hv : v ∈ g.vertices)
    (hno : (u, v) ∉ g.edges) :
    (g.addEdge u v info).1 = .ok () ∧
    (g.addEdge u v info).2.edgeInfo u v = .ok info ∧
    (∃ l, (g.addEdge u v info).2.edgesOf u = .ok l ∧ (u, v) ∈ l) ∧
    (u, v) ∈ (g.addEdge u v info).2.edges ∧
    (g.addEdge u v info).2.edgeCount = g.edgeCount + 1 ∧
    (∀ a b : Int, (a, b) ≠ (u, v) →
      (g.addEdge u v info).2.edgeInfo a b = g.edgeInfo a b) ∧
    (∀ w : Int, (g.addEdge u v info).2.vertexInfo w = g.vertexInfo w) := by
  obtain ⟨dv, hdv⟩ := (mem_vertices_iff g u).mp hu
  have hnone : Digraph.findEdge u v dv.edges = none := by
    rw [findEdge_eq_none_iff]
    intro e he hmatch
    apply hno
    rw [mem_edges_iff]
    exact ⟨(u, dv), mapFind_some_mem hdv, e, he, by rw [hmatch.1, hmatch.2]⟩
  have hrun : g.addEdge u v info = (.ok (), ⟨mapModify u
      (fun d => { d with edges := d.edges ++ [⟨u, v, info⟩] }) g.list⟩) := by
    simp [Digraph.addEdge, hdv, hnone]
  have hfind := mapFind_mapModify_self u
    (fun d : DigraphVertex VertexInfo EdgeInfo => { d with edges := d.edges ++ [⟨u, v, info⟩] }) hdv
  obtain ⟨l1, l2, hm, hmod⟩ := mapModify_split u
    (fun d : DigraphVertex VertexInfo EdgeInfo => { d with edges := d.edges ++ [⟨u, v, info⟩] }) hdv
  rw [hrun]
  refine ⟨rfl, ?_, ?_, ?_, ?_, ?_, ?_⟩
  · simp [Digraph.edgeInfo, hfind, findEdge_append, hnone, Digraph.findEdge]
  · refine ⟨_, edgesOf_eq_map _ _ _ hfind, ?_⟩
    simp
  · rw [mem_edges_iff]
    exact ⟨_, mapFind_some_mem hfind, ⟨u, v, info⟩, by simp, rfl⟩
  · rw [edgeCount_eq_length_edges, edgeCount_eq_length_edges]
    have hg : g = Digraph.mk (l1 ++ (u, dv) :: l2) := by
      cases g
      simp only at hm
      rw [hm]
    simp only [hmod]
    rw [hg, edges_of_split, edges_of_split]
    simp only [List.length_append, List.length_map, List.length_cons, List.length_nil]
    omega
  · intro a b hab
    by_cases ha : a = u
    · subst ha
      have hb : ¬ v = b := by
        intro hvb
        apply hab
        rw [hvb]
      simp [Digraph.edgeInfo, hfind, hdv, findEdge_append, Digraph.findEdge, hb]
      cases Digraph.findEdge a b dv.edges <;> rfl
    · simp [Digraph.edgeInfo, mapFind_mapModify_ne _ _ _ ha]
  · intro w
    by_cases hw : w = u
    · subst hw
      simp [Digraph.vertexInfo, hfind, hdv]
    · simp [Digraph.vertexInfo, mapFind_mapModify_ne _ _ _ hw]

/-- Witness for C13: `addEdge(2, 1, info)` on the graph with vertices 1, 2 and
the edge 1->2. -/
theorem addEdge_new_pair_witness :
    (2 : Int) ∈ oneEdge.vertices ∧ (1 : Int) ∈ oneEdge.vertices ∧
    ((2 : Int), (1 : Int)) ∉ oneEdge.edges ∧
    (oneEdge.addEdge 2 1 ()).2.edgeCount = oneEdge.edgeCount + 1 :=
  ⟨by decide, by decide, by decide,
    (addEdge_new_pair oneEdge 2 1 () (by decide) (by decide) (by decide)).2.2.2.2.1⟩

/-! ## `removeEdge` -/

theorem eraseEdge_split {EdgeInfo : Type} {u v : Int} {l l2 : List (DigraphEdge EdgeInfo)}
    (h : Digraph.eraseEdge u v l = some l2) :
    ∃ l1 e l3, l = l1 ++ e :: l3 ∧ l2 = l1 ++ l3 ∧ e.fromVertex = u ∧ e.toVertex = v := by
  induction l generalizing l2 with
  | nil => simp [Digraph.eraseEdge] at h
  | cons a rest ih =>
    unfold Digraph.eraseEdge at h
    split_ifs at h with h1
    · simp only [Option.some.injEq] at h
      exact ⟨[], a, rest, rfl, h.symm, h1.1, h1.2⟩
    · simp only [Option.map_eq_some'] at h
      obtain ⟨l4, hl4, rfl⟩ := h
      obtain ⟨l1, e, l3, hl, hl2, hf, ht⟩ := ih hl4
      exact ⟨a :: l1, e, l3, by rw [hl]; rfl, by rw [hl2]; rfl, hf, ht⟩

/-- C14: on a graph built by calls from the empty graph, `removeEdge(u, v)`
returns normally exactly when `u` is a vertex and `(u, v)` is in `edges()`.
When it does, `(u, v)` is no longer in `edges()`, every other pair is in
`edges()` exactly if it was and has the payload it had, `vertices()` is
unchanged, `edgeCount()` is one less than before and `edgeInfo(u, v)` throws. -/
theorem removeEdge_removes_one_edge {VertexInfo EdgeInfo : Type}
    (g : Digraph VertexInfo EdgeInfo) (hg : Reachable g) (u v : Int) :
    ((g.removeEdge u v).1 = .ok () ↔ u ∈ g.vertices ∧ (u, v) ∈ g.edges) ∧
    ((g.removeEdge u v).1 = .ok () →
      (u, v) ∉ (g.removeEdge u v).2.edges ∧
      (∀ a b : Int, (a, b) ≠ (u, v) →
        ((a, b) ∈ (g.removeEdge u v).2.edges ↔ (a, b) ∈ g.edges) ∧
        (g.removeEdge u v).2.edgeInfo a b = g.edgeInfo a b) ∧
      (g.removeEdge u v).2.vertices = g.vertices ∧
      (g.removeEdge u v).2.edgeCount + 1 = g.edgeCount ∧
      (g.removeEdge u v).2.edgeInfo u v =
        .error (.DigraphException "A key already exists")) := by
  have hinv := Inv_of_reachable hg
  constructor
  · constructor
    · intro hok
      cases hdv : mapFind g.list u with
      | none => simp [Digraph.removeEdge, hdv] at hok
      | some dv =>
        cases hl : Digraph.eraseEdge u v dv.edges with
        | none => simp [Digraph.removeEdge, hdv, hl] at hok
        | some l =>
          obtain ⟨l1, e, l3, hsplit, _, hf, ht⟩ := eraseEdge_split hl
          refine ⟨(mem_vertices_iff g u).mpr ⟨dv, hdv⟩, ?_⟩
          rw [mem_edges_iff]
          exact ⟨(u, dv), mapFind_some_mem hdv, e, by rw [hsplit]; simp, by rw [hf, ht]⟩
    · rintro ⟨_, huv⟩
      obtain ⟨dv, hdv, e, he, hfrom, hto⟩ := mem_edges_of_inv hinv huv
      cases hl : Digraph.eraseEdge u v dv.edges with
      | none =>
        rw [eraseEdge_eq_none_iff] at hl
        exact absurd ⟨hfrom, hto⟩ (hl e he)
      | some l => simp [Digraph.removeEdge, hdv, hl]
  · intro hok
    cases hdv : mapFind g.list u with
    | none => simp [Digraph.removeEdge, hdv] at hok
    | some dv =>
      cases hl : Digraph.eraseEdge u v dv.edges with
      | none => simp [Digraph.removeEdge, hdv, hl] at hok
      | some l =>
        obtain ⟨l1, e, l3, hsplit, hl2, hf, ht⟩ := eraseEdge_split hl
        subst hl2
        have hrun : g.removeEdge u v =
            (.ok (), ⟨mapModify u (fun d => { d with edges := l1 ++ l3 }) g.list⟩) := by
          simp [Digraph.removeEdge, hdv, hl]
        have hfind := mapFind_mapModify_self u
          (fun d : DigraphVertex VertexInfo EdgeInfo => { d with edges := l1 ++ l3 }) hdv
        obtain ⟨m1, m2, hm, hmod⟩ := mapModify_split u
          (fun d : DigraphVertex VertexInfo EdgeInfo => { d with edges := l1 ++ l3 }) hdv
        have hgeq : g = Digraph.mk (m1 ++ (u, dv) :: m2) := by
          cases g
          simp only at hm
          rw [hm]
        have hentry := hinv.2 (u, dv) (mapFind_some_mem hdv)
        have hpair : (e.fromVertex, e.toVertex) = (u, v) := by rw [hf, ht]
        have hbefore : g.edges =
            ((Digraph.mk m1).edges ++ l1.map (fun e => (e.fromVertex, e.toVertex)))
              ++ (u, v) :: (l3.map (fun e => (e.fromVertex, e.toVertex))
              ++ (Digraph.mk m2).edges) := by
          rw [hgeq, edges_of_split, hsplit]
          simp [hpair]
        have hafter : (Digraph.mk (mapModify u
              (fun d : DigraphVertex VertexInfo EdgeInfo => { d with edges := l1 ++ l3 }) g.list)).edges =
            ((Digraph.mk m1).edges ++ l1.map (fun e => (e.fromVertex, e.toVertex)))
              ++ (l3.map (fun e => (e.fromVertex, e.toVertex)) ++ (Digraph.mk m2).edges) := by
          rw [hmod, edges_of_split]
          simp
        have hnodup := Inv_edges_nodup hinv
        rw [hbefore, List.nodup_middle, List.nodup_cons] at hnodup
        have hrest : ∀ x ∈ l1 ++ l3, ¬ (x.fromVertex = u ∧ x.toVertex = v) := by
          intro x hx hmatch
          apply hnodup.1
          simp only [List.mem_append, List.mem_map] at hx ⊢
          rcases hx with hx | hx
          · exact Or.inl (Or.inr ⟨x, hx, by rw [hmatch.1, hmatch.2]⟩)
          · exact Or.inr (Or.inl ⟨x, hx, by rw [hmatch.1, hmatch.2]⟩)
        rw [hrun]
        simp only
        refine ⟨?_, ?_, ?_, ?_, ?_⟩
        · rw [hafter]
          exact hnodup.1
        · intro a b hab
          constructor
          · rw [hafter, hbefore]
            simp only [List.mem_append, List.mem_cons]
            constructor
            · rintro (h | h)
              · exact Or.inl h
              · exact Or.inr (Or.inr h)
            · rintro (h | h | h)
              · exact Or.inl h
              · exact absurd h hab
              · exact Or.inr h
          · by_cases ha : a = u
            · subst ha
              have hskip : ¬ (e.fromVertex = a ∧ e.toVertex = b) := by
                rintro ⟨_, h2⟩
                apply hab
                rw [← h2, ht]
              simp only [Digraph.edgeInfo, hfind, hdv]
              rw [hsplit, findEdge_skip a b l1 l3 e hskip]
            · simp [Digraph.edgeInfo, mapFind_mapModify_ne _ _ _ ha]
        · rw [vertices_eq_keys, vertices_eq_keys]
          exact mapModify_keys _ _ _
        · rw [edgeCount_eq_length_edges, edgeCount_eq_length_edges, hafter, hbefore]
          simp only [List.length_append, List.length_map, List.length_cons]
          omega
        · have hnone : Digraph.findEdge u v (l1 ++ l3) = none := by
            rw [findEdge_eq_none_iff]
            exact hrest
          simp [Digraph.edgeInfo, hfind, hnone]

/-- Witness for C14: `removeEdge(3, 1)` on the graph with vertices 1, 2, 3 and
the edges 1->2, 2->3, 3->1. -/
theorem removeEdge_removes_one_edge_witness :
    Reachable triangle ∧ (triangle.removeEdge 3 1).1 = .ok () ∧
    ((3 : Int), (1 : Int)) ∉ (triangle.removeEdge 3 1).2.edges ∧
    (triangle.removeEdge 3 1).2.edgeCount + 1 = triangle.edgeCount :=
  ⟨⟨_, rfl⟩, by decide,
    ((removeEdge_removes_one_edge triangle ⟨_, rfl⟩ 3 1).2 (by decide)).1,
    ((removeEdge_removes_one_edge triangle ⟨_, rfl⟩ 3 1).2 (by decide)).2.2.2.1⟩

/-! ## One exception type for every failure -/

/-- C17 (amended): `edgeInfo(u, v)` throws a `DigraphException` when `u` is not
a vertex and when `u` is a vertex and `(u, v)` is not in `edges()`, and
`addVertex` on an existing key throws a `DigraphException`: the three failures
are of the one exception type. -/
theorem failures_throw_one_exception_type {VertexInfo EdgeInfo : Type}
    (g : Digraph VertexInfo EdgeInfo) (u v : Int) (vinfo : VertexInfo) :
    (u ∉ g.vertices → ∃ reason, g.edgeInfo u v = .error (.DigraphException reason)) ∧
    (u ∈ g.vertices → (u, v) ∉ g.edges →
      ∃ reason, g.edgeInfo u v = .error (.DigraphException reason)) ∧
    (u ∈ g.vertices →
      ∃ reason, (g.addVertex u vinfo).1 = .error (.DigraphException reason)) := by
  refine ⟨?_, ?_, ?_⟩
  · intro hu
    have hnone := (not_mem_vertices_iff g u).mp hu
    exact ⟨"A key already exists", by simp [Digraph.edgeInfo, hnone]⟩
  · intro hu huv
    obtain ⟨dv, hdv⟩ := (mem_vertices_iff g u).mp hu
    have hnone : Digraph.findEdge u v dv.edges = none := by
      rw [findEdge_eq_none_iff]
      intro e he hmatch
      apply huv
      rw [mem_edges_iff]
      exact ⟨(u, dv), mapFind_some_mem hdv, e, he, by rw [hmatch.1, hmatch.2]⟩
    exact ⟨"A key already exists", by simp [Digraph.edgeInfo, hdv, hnone]⟩
  · intro hu
    obtain ⟨dv, hdv⟩ := (mem_vertices_iff g u).mp hu
    exact ⟨"A key already exists", by simp [Digraph.addVertex, hdv]⟩

/-- Witness for C17: the graph whose only vertex is 1, with `u = 1`, `v = 2`. -/
theorem failures_throw_one_exception_type_witness :
    (1 : Int) ∈ lonely.vertices ∧ ((1 : Int), (2 : Int)) ∉ lonely.edges ∧
    (∃ reason, lonely.edgeInfo 1 2 = .error (.DigraphException reason)) ∧
    (∃ reason, (lonely.addVertex 1 ()).1 = .error (.DigraphException reason)) :=
  ⟨by decide, by decide,
    (failures_throw_one_exception_type lonely 1 2 ()).2.1 (by decide) (by decide),
    (failures_throw_one_exception_type lonely 1 2 ()).2.2 (by decide)⟩

/-! ## Termination of the traversal -/

theorem countMarked_mark {m : StdMap Bool} {y : Int} (h : mapFind m y = some false) :
    Digraph.countMarked (mapModify y (fun _ => true) m) = Digraph.countMarked m + 1 := by
  rw [countMarked_eq_countP, countMarked_eq_countP]
  induction m with
  | nil => simp [mapFind] at h
  | cons a rest ih =>
    obtain ⟨k1, v1⟩ := a
    by_cases hk : k1 = y
    · simp only [mapFind, hk, if_true, Option.some.injEq] at h
      subst h
      simp [mapModify, hk, List.countP_cons]
    · simp only [mapFind, hk, if_false] at h
      have ih2 := ih h
      simp only [mapModify, hk, if_false, List.countP_cons]
      omega

theorem mapSize_mark (m : StdMap Bool) (x : Int) :
    mapSize (mapModify x (fun _ => true) m) = mapSize m := by
  have h := congrArg List.length (mapModify_keys x (fun _ => true) m)
  simpa [mapSize] using h

theorem unmarked_eq_size_sub_marked (m : StdMap Bool) :
    m.countP (fun i => !i.2) = mapSize m - Digraph.countMarked m := by
  rw [countMarked_eq_countP]
  have h := List.length_eq_countP_add_countP (fun i : Int × Bool => i.2) m
  have h2 : List.countP (fun a : Int × Bool => decide ¬ a.2 = true) m
      = List.countP (fun i : Int × Bool => !i.2) m := by
    congr 1
    funext i
    cases i.2 <;> rfl
  rw [h2] at h
  simp only [mapSize]
  omega

theorem DFTrLoop_congr {EdgeInfo : Type} (call1 call2 : Int → StdMap Bool → Except Fault Bool)
    (myArray : StdMap Bool)
    (h : ∀ y, mapFind myArray y = some false → call1 y myArray = call2 y myArray)
    (l : List (DigraphEdge EdgeInfo)) (result : Bool) :
    Digraph.DFTrLoop call1 myArray l result = Digraph.DFTrLoop call2 myArray l result := by
  induction l generalizing result with
  | nil => rfl
  | cons e rest ih =>
    unfold Digraph.DFTrLoop
    cases hat : mapFind myArray e.toVertex with
    | none => simp [mapAt, hat]
    | some marked =>
      cases marked with
      | true => simpa [mapAt, hat] using ih result
      | false =>
        simp only [mapAt, hat, if_true]
        rw [← h e.toVertex hat]
        cases call1 e.toVertex myArray with
        | error f => rfl
        | ok r =>
          cases r with
          | true => rfl
          | false => simpa using ih false

theorem DFTrLoop_stable {EdgeInfo : Type} (call1 call2 : Int → StdMap Bool → Except Fault Bool)
    (myArray : StdMap Bool)
    (h : ∀ y, call1 y myArray ≠ .error .fuel → call2 y myArray = call1 y myArray)
    (l : List (DigraphEdge EdgeInfo)) (result : Bool)
    (hne : Digraph.DFTrLoop call1 myArray l result ≠ .error .fuel) :
    Digraph.DFTrLoop call2 myArray l result = Digraph.DFTrLoop call1 myArray l result := by
  induction l generalizing result with
  | nil => rfl
  | cons e rest ih =>
    unfold Digraph.DFTrLoop at hne ⊢
    cases hat : mapFind myArray e.toVertex with
    | none => simp [mapAt, hat]
    | some marked =>
      cases marked with
      | true =>
        simp only [mapAt, hat] at hne ⊢
        exact ih result (by simpa using hne)
      | false =>
        simp only [mapAt, hat, if_true] at hne ⊢
        cases hc : call1 e.toVertex myArray with
        | error f =>
          rw [hc] at hne
          have hf : call1 e.toVertex myArray ≠ .error .fuel := by
            rw [hc]
            simpa using hne
          rw [h e.toVertex hf, hc]
        | ok r =>
          have hf : call1 e.toVertex myArray ≠ .error .fuel := by
            rw [hc]
            simp
          rw [h e.toVertex hf, hc]
          rw [hc] at hne
          cases r with
          | true => rfl
          | false => exact ih false (by simpa using hne)

theorem DFTr_stable_succ {VertexInfo EdgeInfo : Type} (g : Digraph VertexInfo EdgeInfo)
    (n : Nat) (x : Int) (myArray : StdMap Bool) (hne : g.DFTr n x myArray ≠ .error .fuel) :
    g.DFTr (n + 1) x myArray = g.DFTr n x myArray := by
  induction n generalizing x myArray with
  | zero => simp [Digraph.DFTr] at hne
  | succ n ih =>
    unfold Digraph.DFTr at hne ⊢
    cases hx : mapFind myArray x with
    | none => rfl
    | some b =>
      simp only [hx] at hne ⊢
      split_ifs with hcount
      · rfl
      · simp only [hcount, if_false] at hne
        cases hg : mapFind g.list x with
        | none => rfl
        | some dv =>
          simp only [hg] at hne ⊢
          exact DFTrLoop_stable _ _ _ (fun y hy => ih y _ hy) _ _ hne

theorem DFTr_stable {VertexInfo EdgeInfo : Type} (g : Digraph VertexInfo EdgeInfo)
    (n : Nat) (x : Int) (myArray : StdMap Bool) (hne : g.DFTr n x myArray ≠ .error .fuel)
    (k : Nat) : g.DFTr (n + k) x myArray = g.DFTr n x myArray := by
  induction k with
  | zero => rfl
  | succ k ih =>
    have h := DFTr_stable_succ g (n + k) x myArray (by rw [ih]; exact hne)
    rw [← Nat.add_assoc, h, ih]

theorem DFTrLoop_ends {EdgeInfo : Type} (call : Int → StdMap Bool → Except Fault Bool)
    (myArray : StdMap Bool)
    (hcall : ∀ y, mapFind myArray y = some false → ReturnsOrThrows (call y myArray))
    (l : List (DigraphEdge EdgeInfo)) (result : Bool) :
    ReturnsOrThrows (Digraph.DFTrLoop call myArray l result) := by
  induction l generalizing result with
  | nil => exact Or.inl ⟨result, rfl⟩
  | cons e rest ih =>
    unfold Digraph.DFTrLoop
    cases hat : mapFind myArray e.toVertex with
    | none => exact Or.inr (by simp [mapAt, hat])
    | some marked =>
      cases marked with
      | true => simpa [mapAt, hat] using ih result
      | false =>
        simp only [mapAt, hat, if_true]
        rcases hcall e.toVertex hat with ⟨b, hb⟩ | hthrow
        · rw [hb]
          cases b with
          | true => exact Or.inl ⟨true, rfl⟩
          | false => simpa using ih false
        · rw [hthrow]
          exact Or.inr rfl

theorem mapFind_mark_ne_none {m : StdMap Bool} {x k : Int}
    (h : mapFind (mapModify x (fun _ => true) m) k ≠ none) : mapFind m k ≠ none := by
  rw [Ne, mapFind_eq_none_iff] at h ⊢
  rw [mapModify_keys] at h
  exact h

theorem DFTr_ends {VertexInfo EdgeInfo : Type} (g : Digraph VertexInfo EdgeInfo)
    (n : Nat) (x : Int) (myArray : StdMap Bool)
    (hkeys : ∀ k, mapFind myArray k ≠ none → mapFind g.list k ≠ none)
    (h : (mapModify x (fun _ => true) myArray).countP (fun i => !i.2) < n) :
    ReturnsOrThrows (g.DFTr n x myArray) := by
  induction n generalizing x myArray with
  | zero => omega
  | succ n ih =>
    unfold Digraph.DFTr
    cases hx : mapFind myArray x with
    | none => exact Or.inr rfl
    | some b =>
      simp only
      split_ifs with hcount
      · exact Or.inl ⟨true, rfl⟩
      · cases hg : mapFind g.list x with
        | none => exact absurd hg (hkeys x (by rw [hx]; simp))
        | some dv =>
          simp only
          apply DFTrLoop_ends
          intro y hy
          apply ih
          · intro k hk
            exact hkeys k (mapFind_mark_ne_none hk)
          · have := unmarked_mark_succ hy
            omega

theorem mapFind_ne_none_of_mem {T : Type} {m : StdMap T} {i : Int × T} (h : i ∈ m) :
    mapFind m i.1 ≠ none := by
  rw [Ne, mapFind_eq_none_iff]
  intro hn
  exact hn (List.mem_map.mpr ⟨i, h, rfl⟩)

theorem DFTLoop_ends {VertexInfo EdgeInfo : Type} (g : Digraph VertexInfo EdgeInfo)
    (myArray : StdMap Bool)
    (hkeys : ∀ k, mapFind myArray k ≠ none → mapFind g.list k ≠ none)
    (l : List (Int × Bool)) (hl : ∀ i ∈ l, i ∈ myArray) (result : Bool) :
    ReturnsOrThrows (g.DFTLoop myArray l result) := by
  induction l generalizing result with
  | nil => exact Or.inl ⟨result, rfl⟩
  | cons i rest ih =>
    have hrest : ∀ j ∈ rest, j ∈ myArray := fun j hj => hl j (List.mem_cons_of_mem _ hj)
    unfold Digraph.DFTLoop
    split_ifs with hi
    · have hmem : i ∈ myArray := hl i (List.mem_cons_self _ _)
      have hfind : ∃ b, mapFind myArray i.1 = some b := by
        cases hf : mapFind myArray i.1 with
        | none => exact absurd hf (mapFind_ne_none_of_mem hmem)
        | some b => exact ⟨b, rfl⟩
      obtain ⟨b, hb⟩ := hfind
      rcases DFTr_ends g (mapSize myArray) i.1 myArray hkeys (unmarked_mark_lt_length hb) with
        ⟨r, hr⟩ | hthrow
      · rw [hr]
        cases r with
        | false => exact Or.inl ⟨false, rfl⟩
        | true => simpa using ih hrest true
      · rw [hthrow]
        exact Or.inr rfl
    · exact ih hrest result

theorem keys_foldl_mapInsert {T : Type} (l : StdMap T) (acc : StdMap Bool) (k : Int)
    (h : k ∈ (l.foldl (fun m iter => mapInsert iter.1 false m) acc).map Prod.fst) :
    k ∈ acc.map Prod.fst ∨ k ∈ l.map Prod.fst := by
  induction l generalizing acc with
  | nil => exact Or.inl h
  | cons a rest ih =>
    simp only [List.foldl_cons] at h
    rcases ih _ h with h1 | h1
    · obtain ⟨it, hit, hk⟩ := List.mem_map.mp h1
      rcases mapInsert_mem hit with rfl | hit
      · exact Or.inr (by simp [← hk])
      · exact Or.inl (List.mem_map.mpr ⟨it, hit, hk⟩)
    · exact Or.inr (by simp [h1])

theorem isStronglyConnected_ends {VertexInfo EdgeInfo : Type}
    (g : Digraph VertexInfo EdgeInfo) : ReturnsOrThrows g.isStronglyConnected := by
  unfold Digraph.isStronglyConnected
  split_ifs
  · exact Or.inl ⟨false, rfl⟩
  · apply DFTLoop_ends g _ _ _ (fun _ hi => hi) false
    intro k hk
    rw [Ne, mapFind_eq_none_iff] at hk ⊢
    simp only [not_not] at hk ⊢
    rcases keys_foldl_mapInsert g.list [] k hk with h | h
    · simp at h
    · exact h

/-- C19: the traversal terminates.  On every graph `isStronglyConnected()`
ends, with a Boolean or with the `std::out_of_range` of `std::map::at`; marking
an unmarked vertex raises the number of marked entries by one; the loop of
`DFTr` calls `DFTr` only for destinations that are unmarked in its map; and a
call of `DFTr` whose map, once its vertex is marked, has fewer than `n`
unmarked entries never nests more than `n` calls, so that its outcome is the
same for every larger bound. -/
theorem traversal_terminates {VertexInfo EdgeInfo : Type} (g : Digraph VertexInfo EdgeInfo) :
    ((∃ b, g.isStronglyConnected = .ok b) ∨ g.isStronglyConnected = .error .out_of_range) ∧
    (∀ (myArray : StdMap Bool) (y : Int), mapFind myArray y = some false →
      Digraph.countMarked (mapModify y (fun _ => true) myArray)
        = Digraph.countMarked myArray + 1 ∧
      mapSize (mapModify y (fun _ => true) myArray) = mapSize myArray) ∧
    (∀ (call1 call2 : Int → StdMap Bool → Except Fault Bool) (myArray : StdMap Bool)
      (l : List (DigraphEdge EdgeInfo)) (result : Bool),
      (∀ y, mapFind myArray y = some false → call1 y myArray = call2 y myArray) →
      Digraph.DFTrLoop call1 myArray l result = Digraph.DFTrLoop call2 myArray l result) ∧
    (∀ (n : Nat) (x : Int) (myArray : StdMap Bool),
      mapSize myArray - Digraph.countMarked (mapModify x (fun _ => true) myArray) < n →
      g.DFTr n x myArray ≠ .error .fuel ∧
      ∀ k, g.DFTr (n + k) x myArray = g.DFTr n x myArray) := by
  refine ⟨isStronglyConnected_ends g, ?_, ?_, ?_⟩
  · intro myArray y hy
    exact ⟨countMarked_mark hy, mapSize_mark myArray y⟩
  · intro call1 call2 myArray l result h
    exact DFTrLoop_congr call1 call2 myArray h l result
  · intro n x myArray h
    have hfuel : g.DFTr n x myArray ≠ .error .fuel := by
      apply DFTr_ne_fuel
      rw [unmarked_eq_size_sub_marked, mapSize_mark]
      exact h
    exact ⟨hfuel, DFTr_stable g n x myArray hfuel⟩

/-- Witness for C19: the graph with the self-loop 1->1 and the cycle 1->2, 2->1,
and the first call `DFTr(1, myArray)` made by `DFT` on it. -/
theorem traversal_terminates_witness :
    loops.edges = [(1, 1), (1, 2), (2, 1)] ∧ loops.isStronglyConnected = .ok true ∧
    mapSize [((1 : Int), false), ((2 : Int), false)]
      - Digraph.countMarked (mapModify 1 (fun _ => true) [((1 : Int), false), ((2 : Int), false)])
      < 2 ∧
    loops.DFTr 2 1 [(1, false), (2, false)] ≠ .error .fuel :=
  ⟨by decide, by decide, by decide,
    ((traversal_terminates loops).2.2.2 2 1 [(1, false), (2, false)] (by decide)).1⟩

/-! ## What the traversal decides -/

theorem DFTrLoop_spec {EdgeInfo : Type} (call : Int → StdMap Bool → Except Fault Bool)
    (myArray : StdMap Bool) (P : Int → Prop)
    (hcall : ∀ y, mapFind myArray y = some false →
      ∃ b, call y myArray = .ok b ∧ (b = true ↔ P y))
    (l : List (DigraphEdge EdgeInfo)) (hl : ∀ e ∈ l, mapFind myArray e.toVertex ≠ none) :
    ∃ b, Digraph.DFTrLoop call myArray l false = .ok b ∧
      (b = true ↔ ∃ e ∈ l, mapFind myArray e.toVertex = some false ∧ P e.toVertex) := by
  induction l with
  | nil => exact ⟨false, rfl, by simp⟩
  | cons e rest ih =>
    have hrest : ∀ e2 ∈ rest, mapFind myArray e2.toVertex ≠ none :=
      fun e2 he2 => hl e2 (List.mem_cons_of_mem _ he2)
    obtain ⟨b, hb, hiff⟩ := ih hrest
    unfold Digraph.DFTrLoop
    cases hat : mapFind myArray e.toVertex with
    | none => exact absurd hat (hl e (List.mem_cons_self _ _))
    | some marked =>
      cases marked with
      | true =>
        refine ⟨b, by simpa [mapAt, hat] using hb, ?_⟩
        rw [hiff]
        simp [hat]
      | false =>
        obtain ⟨r, hr, hriff⟩ := hcall e.toVertex hat
        cases r with
        | true =>
          refine ⟨true, by simp [mapAt, hat, hr], ?_⟩
          simp only [true_iff]
          exact ⟨e, List.mem_cons_self _ _, hat, hriff.mp rfl⟩
        | false =>
          refine ⟨b, by simpa [mapAt, hat, hr] using hb, ?_⟩
          rw [hiff]
          have hnot : ¬ P e.toVertex := fun hp => by simpa using hriff.mpr hp
          simp [hat, hnot]

theorem mapFind_mark_false_iff {m : StdMap Bool} {y z : Int} (hy : mapFind m y ≠ none) :
    mapFind (mapModify y (fun _ => true) m) z = some false ↔
      z ≠ y ∧ mapFind m z = some false := by
  by_cases hz : z = y
  · subst hz
    cases hb : mapFind m z with
    | none => exact absurd hb hy
    | some b =>
      rw [mapFind_mapModify_self z (fun _ => true) hb]
      simp
  · rw [mapFind_mapModify_ne y (fun _ => true) m hz]
    simp [hz]

theorem exists_unmarked_of_count_ne {m : StdMap Bool} (hwf : mapWF m)
    (h : ¬ Digraph.countMarked m = mapSize m) : ∃ y, mapFind m y = some false := by
  rw [countMarked_eq_countP] at h
  simp only [mapSize] at h
  rw [List.countP_eq_length] at h
  simp only [not_forall] at h
  obtain ⟨i, hi, hfalse⟩ := h
  refine ⟨i.1, ?_⟩
  rw [mapFind_of_mem hwf hi]
  simpa using hfalse

theorem no_unmarked_of_count_eq {m : StdMap Bool}
    (h : Digraph.countMarked m = mapSize m) (y : Int) : mapFind m y ≠ some false := by
  rw [countMarked_eq_countP] at h
  simp only [mapSize] at h
  rw [List.countP_eq_length] at h
  intro hy
  have := h _ (mapFind_some_mem hy)
  simp at this

theorem mem_edges_of_stored {VertexInfo EdgeInfo : Type} {g : Digraph VertexInfo EdgeInfo}
    (hinv : Inv g) {x : Int} {dv : DigraphVertex VertexInfo EdgeInfo}
    (hdv : mapFind g.list x = some dv) {e : DigraphEdge EdgeInfo} (he : e ∈ dv.edges) :
    (x, e.toVertex) ∈ g.edges := by
  rw [mem_edges_iff]
  have hmem := mapFind_some_mem hdv
  exact ⟨(x, dv), hmem, e, he, by rw [(hinv.2 _ hmem).1 e he]⟩

theorem DFTr_spec {VertexInfo EdgeInfo : Type} (g : Digraph VertexInfo EdgeInfo)
    (hinv : Inv g) (hdest : DestinationsExist g) (n : Nat) (x : Int) (m : StdMap Bool)
    (hwf : mapWF m) (hkeys : m.map Prod.fst = g.list.map Prod.fst) (hx : x ∈ g.vertices)
    (hfuel : (mapModify x (fun _ => true) m).countP (fun i => !i.2) < n) :
    ∃ b, g.DFTr n x m = .ok b ∧
      (b = true ↔ ∃ q : List Int, List.Chain (fun a b => (a, b) ∈ g.edges) x q ∧ q.Nodup ∧
        ∀ y, y ∈ q ↔ mapFind (mapModify x (fun _ => true) m) y = some false) := by
  induction n generalizing x m with
  | zero => omega
  | succ n ih =>
    have hfound : ∀ k, k ∈ g.vertices → mapFind m k ≠ none := by
      intro k hk
      rw [Ne, mapFind_eq_none_iff, hkeys, ← vertices_eq_keys]
      exact fun hn => hn hk
    have hxm := hfound x hx
    obtain ⟨dv, hdv⟩ := (mem_vertices_iff g x).mp hx
    have hwf2 : mapWF (mapModify x (fun _ => true) m) := mapModify_wf _ _ hwf
    have hkeys2 : (mapModify x (fun _ => true) m).map Prod.fst = g.list.map Prod.fst := by
      rw [mapModify_keys, hkeys]
    unfold Digraph.DFTr
    cases hxb : mapFind m x with
    | none => exact absurd hxb hxm
    | some b0 =>
      simp only
      split_ifs with hcount
      · refine ⟨true, rfl, ?_⟩
        simp only [true_iff]
        refine ⟨[], List.Chain.nil, List.nodup_nil, ?_⟩
        intro y
        simp only [List.not_mem_nil, false_iff]
        exact no_unmarked_of_count_eq hcount y
      · simp only [hdv]
        have hloop := DFTrLoop_spec (g.DFTr n) (mapModify x (fun _ => true) m)
          (fun y => ∃ q : List Int, List.Chain (fun a b => (a, b) ∈ g.edges) y q ∧ q.Nodup ∧
            ∀ z, z ∈ q ↔
              mapFind (mapModify y (fun _ => true) (mapModify x (fun _ => true) m)) z
                = some false)
          (by
            intro y hy
            have hyv : y ∈ g.vertices := by
              rw [vertices_eq_keys, ← hkeys2]
              by_contra hn
              rw [← mapFind_eq_none_iff] at hn
              rw [hn] at hy
              cases hy
            apply ih y _ hwf2 hkeys2 hyv
            have := unmarked_mark_succ hy
            omega)
          dv.edges
          (by
            intro e he
            have hmem := mem_edges_of_stored hinv hdv he
            have hv := hdest _ hmem
            rw [Ne, mapFind_eq_none_iff, hkeys2, ← vertices_eq_keys]
            exact fun hn => hn hv)
        obtain ⟨b, hb, hiff⟩ := hloop
        refine ⟨b, hb, ?_⟩
        rw [hiff]
        constructor
        · rintro ⟨e, he, hun, q, hchain, hnodup, hq⟩
          have hne : mapFind (mapModify x (fun _ => true) m) e.toVertex ≠ none := by
            rw [hun]
            simp
          refine ⟨e.toVertex :: q, List.Chain.cons (mem_edges_of_stored hinv hdv he) hchain,
            ?_, ?_⟩
          · rw [List.nodup_cons]
            refine ⟨?_, hnodup⟩
            intro hin
            have := (mapFind_mark_false_iff hne).mp ((hq _).mp hin)
            exact this.1 rfl
          · intro y
            rw [List.mem_cons, hq y, mapFind_mark_false_iff hne]
            constructor
            · rintro (rfl | ⟨_, h2⟩)
              · exact hun
              · exact h2
            · intro h2
              by_cases hy : y = e.toVertex
              · exact Or.inl hy
              · exact Or.inr ⟨hy, h2⟩
        · rintro ⟨q, hchain, hnodup, hq⟩
          obtain ⟨y0, hy0⟩ := exists_unmarked_of_count_ne hwf2 hcount
          cases q with
          | nil =>
            have := (hq y0).mpr hy0
            simp at this
          | cons y q2 =>
            rw [List.chain_cons] at hchain
            rw [List.nodup_cons] at hnodup
            obtain ⟨dv2, hdv2, e, he, _, hto⟩ := mem_edges_of_inv hinv hchain.1
            rw [hdv] at hdv2
            simp only [Option.some.injEq] at hdv2
            subst hdv2
            have hun : mapFind (mapModify x (fun _ => true) m) y = some false :=
              (hq y).mp (List.mem_cons_self _ _)
            have hne : mapFind (mapModify x (fun _ => true) m) y ≠ none := by
              rw [hun]
              simp
            refine ⟨e, he, by rw [hto]; exact hun, ?_⟩
            rw [hto]
            refine ⟨q2, hchain.2, hnodup.2, ?_⟩
            intro z
            rw [mapFind_mark_false_iff hne]
            constructor
            · intro hz
              refine ⟨?_, (hq z).mp (List.mem_cons_of_mem _ hz)⟩
              rintro rfl
              exact hnodup.1 hz
            · rintro ⟨hzy, hz⟩
              have := (hq z).mpr hz
              rw [List.mem_cons] at this
              rcases this with h3 | h3
              · exact absurd h3 hzy
              · exact h3

theorem mapInsert_last {T : Type} (k : Int) (v : T) (acc : StdMap T)
    (h : ∀ it ∈ acc, it.1 < k) : mapInsert k v acc = acc ++ [(k, v)] := by
  induction acc with
  | nil => rfl
  | cons a rest ih =>
    obtain ⟨k1, v1⟩ := a
    have h1 : k1 < k := h (k1, v1) (List.mem_cons_self _ _)
    have h2 : ¬ k < k1 := by omega
    have h3 : ¬ k = k1 := by omega
    simp only [mapInsert, h2, h3, if_false, List.cons_append]
    rw [ih (fun it hit => h it (List.mem_cons_of_mem _ hit))]

theorem foldl_mapInsert_sorted {T : Type} (l : StdMap T) (acc : StdMap Bool)
    (hwf : mapWF l) (hacc : ∀ it ∈ acc, ∀ jt ∈ l, it.1 < jt.1) :
    l.foldl (fun m iter => mapInsert iter.1 false m) acc
      = acc ++ l.map (fun it => (it.1, false)) := by
  induction l generalizing acc with
  | nil => simp
  | cons a rest ih =>
    rw [mapWF_cons] at hwf
    simp only [List.foldl_cons, List.map_cons]
    rw [mapInsert_last a.1 false acc (fun it hit => hacc it hit a (List.mem_cons_self _ _))]
    rw [ih (acc ++ [(a.1, false)]) hwf.2]
    · simp
    · intro it hit jt hjt
      simp only [List.mem_append, List.mem_singleton] at hit
      rcases hit with hit | rfl
      · exact hacc it hit jt (List.mem_cons_of_mem _ hjt)
      · exact hwf.1 jt hjt

theorem DFTLoop_spec {VertexInfo EdgeInfo : Type} (g : Digraph VertexInfo EdgeInfo)
    (myArray : StdMap Bool) (Q : Int → Prop) (l : List (Int × Bool))
    (hl : ∀ i ∈ l, i.2 = false ∧
      ∃ b, g.DFTr (mapSize myArray) i.1 myArray = .ok b ∧ (b = true ↔ Q i.1))
    (result : Bool) :
    ∃ b, g.DFTLoop myArray l result = .ok b ∧
      (b = true ↔ (result = true ∨ l ≠ []) ∧ ∀ i ∈ l, Q i.1) := by
  induction l generalizing result with
  | nil => exact ⟨result, rfl, by simp⟩
  | cons i rest ih =>
    have hrest := fun j hj => hl j (List.mem_cons_of_mem _ hj)
    obtain ⟨hi, r, hr, hriff⟩ := hl i (List.mem_cons_self _ _)
    unfold Digraph.DFTLoop
    simp only [hi, if_true, hr]
    cases r with
    | false =>
      refine ⟨false, rfl, ?_⟩
      have hnot : ¬ Q i.1 := fun hq => by simpa using hriff.mpr hq
      simp [hnot]
    | true =>
      obtain ⟨b, hb, hiff⟩ := ih hrest true
      refine ⟨b, by simpa using hb, ?_⟩
      rw [hiff]
      have hq : Q i.1 := hriff.mp rfl
      simp [hq]

theorem chain_reaches {R : Int → Int → Prop} {a : Int} {q : List Int}
    (h : List.Chain R a q) : ∀ v ∈ q, Relation.ReflTransGen R a v := by
  induction q generalizing a with
  | nil => simp
  | cons b rest ih =>
    rw [List.chain_cons] at h
    intro v hv
    rw [List.mem_cons] at hv
    rcases hv with rfl | hv
    · exact Relation.ReflTransGen.single h.1
    · exact Relation.ReflTransGen.head h.1 (ih h.2 v hv)

theorem hamiltonian_of_tail {VertexInfo EdgeInfo : Type} (g : Digraph VertexInfo EdgeInfo)
    (x : Int) (hx : x ∈ g.vertices) :
    HamiltonianPathFrom g x ↔
      ∃ q : List Int, List.Chain (fun a b => (a, b) ∈ g.edges) x q ∧ q.Nodup ∧
        ∀ y, y ∈ q ↔ (y ≠ x ∧ y ∈ g.vertices) := by
  constructor
  · rintro ⟨p, hhead, hnodup, hmem, hchain⟩
    cases p with
    | nil => simp at hhead
    | cons a q =>
      simp only [List.head?_cons, Option.some.injEq] at hhead
      subst hhead
      rw [List.nodup_cons] at hnodup
      refine ⟨q, hchain, hnodup.2, ?_⟩
      intro y
      constructor
      · intro hy
        refine ⟨?_, (hmem y).mp (List.mem_cons_of_mem _ hy)⟩
        rintro rfl
        exact hnodup.1 hy
      · rintro ⟨hne, hy⟩
        have := (hmem y).mpr hy
        rw [List.mem_cons] at this
        rcases this with h | h
        · exact absurd h hne
        · exact h
  · rintro ⟨q, hchain, hnodup, hq⟩
    refine ⟨x :: q, rfl, ?_, ?_, hchain⟩
    · rw [List.nodup_cons]
      refine ⟨?_, hnodup⟩
      intro hin
      exact ((hq x).mp hin).1 rfl
    · intro v
      rw [List.mem_cons, hq v]
      constructor
      · rintro (rfl | ⟨_, h⟩)
        · exact hx
        · exact h
      · intro hv
        by_cases h : v = x
        · exact Or.inl h
        · exact Or.inr ⟨h, hv⟩

theorem twoLoops_stronglyConnected : StronglyConnected twoLoops := by
  have hv : twoLoops.vertices = [1, 2, 3] := by decide
  have toHub : ∀ u ∈ [(1 : Int), 2, 3], Reaches twoLoops u 1 := by
    intro u hu
    simp only [List.mem_cons, List.mem_singleton, List.not_mem_nil, or_false] at hu
    rcases hu with rfl | rfl | rfl
    · exact Relation.ReflTransGen.refl
    · exact Relation.ReflTransGen.single (by show ((2 : Int), (1 : Int)) ∈ twoLoops.edges; decide)
    · exact Relation.ReflTransGen.single (by show ((3 : Int), (1 : Int)) ∈ twoLoops.edges; decide)
  have fromHub : ∀ v ∈ [(1 : Int), 2, 3], Reaches twoLoops 1 v := by
    intro v hv
    simp only [List.mem_cons, List.mem_singleton, List.not_mem_nil, or_false] at hv
    rcases hv with rfl | rfl | rfl
    · exact Relation.ReflTransGen.refl
    · exact Relation.ReflTransGen.single (by show ((1 : Int), (2 : Int)) ∈ twoLoops.edges; decide)
    · exact Relation.ReflTransGen.single (by show ((1 : Int), (3 : Int)) ∈ twoLoops.edges; decide)
  intro u hu v hv2
  rw [hv] at hu hv2
  exact Relation.ReflTransGen.trans (toHub u hu) (fromHub v hv2)

theorem isStronglyConnected_spec {VertexInfo EdgeInfo : Type}
    (g : Digraph VertexInfo EdgeInfo) (hinv : Inv g) (hne : g.vertices ≠ [])
    (hdest : DestinationsExist g) :
    ∃ b, g.isStronglyConnected = .ok b ∧
      (b = true ↔ ∀ x ∈ g.vertices, HamiltonianPathFrom g x) := by
  have hm0 : g.list.foldl (fun m iter => mapInsert iter.1 false m) ([] : StdMap Bool)
      = g.list.map (fun it => (it.1, false)) := by
    rw [foldl_mapInsert_sorted g.list [] hinv.1 (by simp)]
    simp
  have hkeys : (g.list.map (fun it => ((it.1, false) : Int × Bool))).map Prod.fst
      = g.list.map Prod.fst := by
    rw [List.map_map]
    rfl
  have hwf : mapWF (g.list.map (fun it => ((it.1, false) : Int × Bool))) := by
    unfold mapWF
    rw [hkeys]
    exact hinv.1
  have hsize : ¬ mapSize g.list < 1 := by
    rw [vertices_eq_keys] at hne
    simp only [mapSize]
    cases hl : g.list with
    | nil => rw [hl] at hne; simp at hne
    | cons a rest => simp
  have hall : ∀ y, mapFind (g.list.map (fun it => ((it.1, false) : Int × Bool))) y = some false
      ↔ y ∈ g.vertices := by
    intro y
    constructor
    · intro hy
      rw [vertices_eq_keys, ← hkeys]
      by_contra hn
      rw [← mapFind_eq_none_iff] at hn
      rw [hn] at hy
      cases hy
    · intro hy
      rw [vertices_eq_keys, List.mem_map] at hy
      obtain ⟨it, hit, rfl⟩ := hy
      have hmem : ((it.1, false) : Int × Bool) ∈ g.list.map (fun it => ((it.1, false) : Int × Bool)) :=
        List.mem_map.mpr ⟨it, hit, rfl⟩
      exact mapFind_of_mem hwf hmem
  unfold Digraph.isStronglyConnected Digraph.DFT
  simp only [hsize, if_false, hm0]
  have hloop := DFTLoop_spec g (g.list.map (fun it => ((it.1, false) : Int × Bool)))
    (fun x => HamiltonianPathFrom g x) (g.list.map (fun it => ((it.1, false) : Int × Bool)))
    (by
      intro i hi
      rw [List.mem_map] at hi
      obtain ⟨it, hit, rfl⟩ := hi
      have hx : it.1 ∈ g.vertices := by
        rw [vertices_eq_keys]
        exact List.mem_map.mpr ⟨it, hit, rfl⟩
      have hfound : mapFind (g.list.map (fun it => ((it.1, false) : Int × Bool))) it.1
          = some false := (hall it.1).mpr hx
      refine ⟨rfl, ?_⟩
      obtain ⟨b, hb, hiff⟩ := DFTr_spec g hinv hdest _ it.1 _ hwf hkeys hx
        (unmarked_mark_lt_length hfound)
      refine ⟨b, hb, ?_⟩
      show b = true ↔ HamiltonianPathFrom g it.1
      rw [hiff, hamiltonian_of_tail g it.1 hx]
      have hne2 : mapFind (g.list.map (fun it => ((it.1, false) : Int × Bool))) it.1 ≠ none := by
        rw [hfound]
        simp
      constructor
      · rintro ⟨q, hchain, hnodup, hq⟩
        refine ⟨q, hchain, hnodup, ?_⟩
        intro y
        rw [hq y, mapFind_mark_false_iff hne2, hall y]
      · rintro ⟨q, hchain, hnodup, hq⟩
        refine ⟨q, hchain, hnodup, ?_⟩
        intro y
        rw [hq y, mapFind_mark_false_iff hne2, hall y])
    false
  obtain ⟨b, hb, hiff⟩ := hloop
  refine ⟨b, hb, ?_⟩
  rw [hiff]
  constructor
  · rintro ⟨_, h⟩ x hx
    rw [vertices_eq_keys, List.mem_map] at hx
    obtain ⟨it, hit, rfl⟩ := hx
    exact h (it.1, false) (List.mem_map.mpr ⟨it, hit, rfl⟩)
  · intro h
    refine ⟨Or.inr ?_, ?_⟩
    · rw [vertices_eq_keys] at hne
      intro hnil
      apply hne
      have := congrArg (List.map Prod.fst) hnil
      rw [hkeys] at this
      simpa using this
    · intro i hi
      rw [List.mem_map] at hi
      obtain ⟨it, hit, rfl⟩ := hi
      apply h
      rw [vertices_eq_keys]
      exact List.mem_map.mpr ⟨it, hit, rfl⟩

/-- C20: what `isStronglyConnected()` decides.  On a graph built by calls from
the empty graph that has a vertex and whose edges all point to vertices,
`isStronglyConnected()` returns a Boolean, and it returns true exactly when
from every vertex a simple directed path starts that visits every vertex
once.  A true result therefore implies that every vertex reaches every
vertex; the converse fails on the graph with vertices 1, 2, 3 and edges 1->2,
2->1, 1->3, 3->1, where every vertex reaches every vertex and the result is
false. -/
theorem isStronglyConnected_iff_hamiltonian {VertexInfo EdgeInfo : Type}
    (g : Digraph VertexInfo EdgeInfo) (hg : Reachable g) (hne : g.vertices ≠ [])
    (hdest : DestinationsExist g) :
    (∃ b, g.isStronglyConnected = .ok b) ∧
    (g.isStronglyConnected = .ok true ↔ ∀ x ∈ g.vertices, HamiltonianPathFrom g x) ∧
    (g.isStronglyConnected = .ok true → StronglyConnected g) ∧
    (StronglyConnected twoLoops ∧ twoLoops.isStronglyConnected = .ok false) := by
  obtain ⟨b, hb, hiff⟩ := isStronglyConnected_spec g (Inv_of_reachable hg) hne hdest
  have hmain : g.isStronglyConnected = .ok true ↔ ∀ x ∈ g.vertices, HamiltonianPathFrom g x := by
    rw [← hiff, hb]
    simp
  refine ⟨⟨b, hb⟩, hmain, ?_, twoLoops_stronglyConnected, by decide⟩
  intro htrue u hu v hv
  obtain ⟨q, hchain, _, hq⟩ := (hamiltonian_of_tail g u hu).mp (hmain.mp htrue u hu)
  by_cases huv : v = u
  · rw [huv]
    exact Relation.ReflTransGen.refl
  · exact chain_reaches hchain v ((hq v).mpr ⟨huv, hv⟩)

/-- Witness for C20: on the graph with vertices 1, 2, 3 and edges 1->2, 2->1,
1->3, 3->1 not every vertex starts a simple path through all vertices. -/
theorem isStronglyConnected_iff_hamiltonian_witness :
    Reachable twoLoops ∧ twoLoops.vertices ≠ [] ∧ DestinationsExist twoLoops ∧
    ¬ (∀ x ∈ twoLoops.vertices, HamiltonianPathFrom twoLoops x) :=
  ⟨⟨_, rfl⟩, by decide, by unfold DestinationsExist; decide,
    fun h => absurd
      ((isStronglyConnected_iff_hamiltonian twoLoops ⟨_, rfl⟩ (by decide)
        (by unfold DestinationsExist; decide)).2.1.mpr h)
      (by decide)⟩

end DigraphHpp
